import Mathlib

/-!
Verification of the agent-session-record (AGR) content pipeline.

This file gives a shallow embedding, in Lean 4, of the parts of the AGR
Rust source that the verified properties talk about:

* `src/asciicast/util.rs` — the Bresenham `Quantizer`;
* `src/asciicast/v3.rs` — the `V3Encoder` quantum;
* `src/asciicast/mod.rs` — events, cumulative times, insertion index;
* `src/analyzer/transforms/dedupe.rs` — `DeduplicateProgressLines`;
* `src/analyzer/transforms/normalize.rs` — `NormalizeWhitespace`,
  `FilterEmptyEvents`;
* `src/analyzer/transforms/terminal.rs` — `TerminalTransform` (story
  extractor with a bounded FIFO hash set);
* `src/player/state.rs`, `src/player/input/keyboard.rs`,
  `src/player/input/mouse.rs`, `src/player/playback/markers.rs`,
  `src/player/render/progress.rs` — the native player state machine.

Modelling conventions: Rust `f64` times are modelled as exact rationals
(`Rat`); the algorithms under study only add, divide and compare times.
Rust `u128`/`i128` arithmetic in the quantizer is modelled with unbounded
`Nat`/`Int` (the quantizer is applied to nanosecond durations, far below
any overflow boundary); Rust `/` on `i128` truncates towards zero, which
is `Int.tdiv`. Rust `String` payloads are modelled as `List Char`.
Definitions whose Rust source is not part of the repository snapshot
(the vendored `TerminalBuffer`, `Event::parse_resize`, the seeking
helpers) are marked `Modelled from the spec:` in their doc comment.
-/

namespace AgrSpec

/-! ## Event model (src/asciicast/mod.rs) -/

/-- Event type codes, from `EventType` in src/asciicast/mod.rs. -/
inductive EventType where
  | Output
  | Input
  | Marker
  | Resize
  | Exit
deriving DecidableEq, Repr

/-- An event in the asciicast file, from `Event` in src/asciicast/mod.rs.
`time` is the offset from the previous event in seconds; `data` is the
payload string, modelled as a list of characters. -/
structure Event where
  time : Rat
  eventType : EventType
  data : List Char
deriving DecidableEq, Repr

/-- Constructor `Event::output`. -/
def Event.output (time : Rat) (data : List Char) : Event :=
  ⟨time, EventType.Output, data⟩

/-- Constructor `Event::marker`. -/
def Event.marker (time : Rat) (label : List Char) : Event :=
  ⟨time, EventType.Marker, label⟩

/-- Predicate `Event::is_output`. -/
def Event.isOutput (e : Event) : Bool :=
  e.eventType = EventType.Output

/-- Predicate `Event::is_marker`. -/
def Event.isMarker (e : Event) : Bool :=
  e.eventType = EventType.Marker

/-! ## Quantizer (src/asciicast/util.rs) -/

/-- The Bresenham error-diffusing quantizer state, from `Quantizer` in
src/asciicast/util.rs: a quantum `q` and the running error, both `i128`
in Rust, modelled as `Int`. -/
structure Quantizer where
  q : Int
  error : Int
deriving DecidableEq, Repr

/-- `Quantizer::new`: quantum `q`, zero error. -/
def Quantizer.new (q : Nat) : Quantizer :=
  ⟨(q : Int), 0⟩

/-- `Quantizer::next`: returns the quantized value together with the
updated state.  Rust's `i128` division truncates towards zero
(`Int.tdiv`). -/
def Quantizer.next (s : Quantizer) (value : Nat) : Int × Quantizer :=
  let errorCorrectedValue : Int := (value : Int) + s.error
  let steps : Int := Int.tdiv (errorCorrectedValue + Int.tdiv s.q 2) s.q
  let quantizedValue : Int := steps * s.q
  (quantizedValue, ⟨s.q, errorCorrectedValue - quantizedValue⟩)

/-- Feed a list of values through successive `Quantizer::next` calls,
returning the list of quantized outputs. -/
def Quantizer.run (s : Quantizer) : List Nat → List Int
  | [] => []
  | v :: vs =>
    let (out, s') := s.next v
    out :: s'.run vs

/-- The `V3Encoder` state from src/asciicast/v3.rs: previous event time
(nanoseconds, modelled as `Nat`) and the time quantizer. -/
structure V3Encoder where
  prevTime : Nat
  timeQuantizer : Quantizer
deriving Repr

/-- `V3Encoder::new`: starts at time zero with a quantizer whose quantum
is 1,000,000 ns. -/
def V3Encoder.new : V3Encoder :=
  ⟨0, Quantizer.new 1000000⟩

/-! ### Quantizer lemmas -/

/-- Invariant carried by the quantizer between calls: the stored quantum
is `q` and twice the absolute accumulated error is at most `q`. -/
def Quantizer.Inv (q : Nat) (s : Quantizer) : Prop :=
  s.q = (q : Int) ∧ 2 * |s.error| ≤ (q : Int)

theorem Quantizer.new_inv (q : Nat) : Quantizer.Inv q (Quantizer.new q) := by
  refine ⟨rfl, ?_⟩
  show 2 * |(0 : Int)| ≤ (q : Int)
  simp

theorem Quantizer.next_eq (s : Quantizer) (v : Nat) :
    s.next v =
      (Int.tdiv ((v : Int) + s.error + Int.tdiv s.q 2) s.q * s.q,
       ⟨s.q, (v : Int) + s.error -
             Int.tdiv ((v : Int) + s.error + Int.tdiv s.q 2) s.q * s.q⟩) := rfl

theorem Quantizer.next_step (q : Nat) (hq : 0 < q) (s : Quantizer)
    (hs : Quantizer.Inv q s) (v : Nat) :
    Quantizer.Inv q (s.next v).2 ∧
    (s.next v).1 = (v : Int) + s.error - (s.next v).2.error ∧
    0 ≤ (s.next v).1 ∧ (q : Int) ∣ (s.next v).1 := by
  obtain ⟨hsq, herr⟩ := hs
  have hqpos : (0 : Int) < (q : Int) := by exact_mod_cast hq
  have habs1 := le_abs_self s.error
  have habs2 := neg_abs_le s.error
  -- k = q.tdiv 2 = q / 2 (both arguments nonnegative)
  have hk_eq : Int.tdiv (q : Int) 2 = (q : Int) / 2 :=
    Int.tdiv_eq_ediv (le_of_lt hqpos) (by omega)
  set k : Int := (q : Int) / 2 with hk
  have hk_bounds : 2 * k ≤ (q : Int) ∧ (q : Int) ≤ 2 * k + 1 := by omega
  have herr_lb : -k ≤ s.error := by omega
  set ecv : Int := (v : Int) + s.error with hecv
  have hv_nonneg : (0 : Int) ≤ (v : Int) := Int.natCast_nonneg v
  have hecv_nonneg : 0 ≤ ecv + k := by omega
  set steps : Int := (ecv + k) / (q : Int) with hsteps
  have hdivmod : (q : Int) * steps + (ecv + k) % (q : Int) = ecv + k :=
    Int.ediv_add_emod (ecv + k) (q : Int)
  have hrem_lb : 0 ≤ (ecv + k) % (q : Int) :=
    Int.emod_nonneg (ecv + k) (ne_of_gt hqpos)
  have hrem_ub : (ecv + k) % (q : Int) < (q : Int) :=
    Int.emod_lt_of_pos (ecv + k) hqpos
  have hsteps_nonneg : 0 ≤ steps := Int.ediv_nonneg hecv_nonneg (le_of_lt hqpos)
  have htd : Int.tdiv (ecv + k) (q : Int) = steps := by
    rw [Int.tdiv_eq_ediv hecv_nonneg (le_of_lt hqpos), hsteps]
  have hnext : s.next v = (steps * (q : Int), ⟨(q : Int), ecv - steps * (q : Int)⟩) := by
    rw [Quantizer.next_eq, hsq, hk_eq, ← hecv, htd]
  have hmul : steps * (q : Int) = (q : Int) * steps := mul_comm _ _
  refine ⟨⟨by rw [hnext], ?_⟩, by rw [hnext]; ring, ?_, ?_⟩
  · -- new error bound: the new error is r - k for a remainder 0 ≤ r < q
    rw [hnext]
    show 2 * |ecv - steps * (q : Int)| ≤ (q : Int)
    have habs : |ecv - steps * (q : Int)| ≤ max k ((q : Int) - 1 - k) := by
      rw [abs_le]
      constructor
      · have : -k ≤ ecv - steps * (q : Int) := by omega
        omega
      · have : ecv - steps * (q : Int) ≤ (q : Int) - 1 - k := by omega
        omega
    have hmax : 2 * max k ((q : Int) - 1 - k) ≤ (q : Int) := by
      rcases max_cases k ((q : Int) - 1 - k) with ⟨hm, _⟩ | ⟨hm, _⟩ <;> omega
    omega
  · rw [hnext]
    exact mul_nonneg hsteps_nonneg (le_of_lt hqpos)
  · rw [hnext]
    exact Dvd.intro_left steps rfl

theorem Quantizer.run_cons (s : Quantizer) (v : Nat) (vs : List Nat) :
    s.run (v :: vs) = (s.next v).1 :: (s.next v).2.run vs := rfl

/-- Sum of a list of integers. -/
def intSum (l : List Int) : Int := l.foldr (· + ·) 0

/-- Sum of a list of naturals, as an integer. -/
def natSumInt (l : List Nat) : Int := l.foldr (fun v acc => (v : Int) + acc) 0

theorem Quantizer.run_prefix_error (q : Nat) (hq : 0 < q) :
    ∀ (inputs : List Nat) (s : Quantizer), Quantizer.Inv q s → ∀ n : Nat,
      2 * |natSumInt (inputs.take n) + s.error - intSum ((s.run inputs).take n)| ≤ (q : Int)
  | [], s, hs, n => by
    simp [natSumInt, intSum, Quantizer.run]
    exact hs.2
  | v :: vs, s, hs, 0 => by
    simp [natSumInt, intSum]
    have := hs.2
    omega
  | v :: vs, s, hs, n + 1 => by
    obtain ⟨hinv, hout, _, _⟩ := Quantizer.next_step q hq s hs v
    have ih := Quantizer.run_prefix_error q hq vs (s.next v).2 hinv n
    rw [Quantizer.run_cons]
    show 2 * |natSumInt (v :: vs.take n) + s.error -
          intSum ((s.next v).1 :: (((s.next v).2.run vs).take n))| ≤ (q : Int)
    have hexp : natSumInt (v :: vs.take n) + s.error -
        intSum ((s.next v).1 :: (((s.next v).2.run vs).take n)) =
        natSumInt (vs.take n) + (s.next v).2.error -
        intSum (((s.next v).2.run vs).take n) := by
      show (v : Int) + natSumInt (vs.take n) + s.error -
          ((s.next v).1 + intSum (((s.next v).2.run vs).take n)) = _
      rw [hout]; ring
    rw [hexp]
    exact ih

theorem Quantizer.run_outputs (q : Nat) (hq : 0 < q) :
    ∀ (inputs : List Nat) (s : Quantizer), Quantizer.Inv q s →
      ∀ out ∈ s.run inputs, 0 ≤ out ∧ (q : Int) ∣ out
  | [], _, _, out, hmem => by simp [Quantizer.run] at hmem
  | v :: vs, s, hs, out, hmem => by
    obtain ⟨hinv, _, hnn, hdvd⟩ := Quantizer.next_step q hq s hs v
    rw [Quantizer.run_cons] at hmem
    rcases List.mem_cons.mp hmem with h | h
    · subst h; exact ⟨hnn, hdvd⟩
    · exact Quantizer.run_outputs q hq vs (s.next v).2 hinv out h

/-- C1: for every quantum Q > 0 and every sequence of non-negative integer
inputs fed through successive `Quantizer::next` calls starting from
`Quantizer::new Q`, after each call the accumulated error
|Σ inputs so far − Σ outputs so far| is at most Q/2 (stated without
division as 2·|error| ≤ Q), every returned value is a non-negative
multiple of Q, and `V3Encoder::new` uses the quantum Q = 1,000,000 ns. -/
theorem quantizer_accumulated_error_le_half_quantum
    (q : Nat) (hq : 0 < q) (inputs : List Nat) :
    (∀ n : Nat,
      2 * |natSumInt (inputs.take n) -
           intSum (((Quantizer.new q).run inputs).take n)| ≤ (q : Int)) ∧
    (∀ out ∈ (Quantizer.new q).run inputs, 0 ≤ out ∧ (q : Int) ∣ out) ∧
    V3Encoder.new.timeQuantizer.q = 1000000 := by
  refine ⟨fun n => ?_, Quantizer.run_outputs q hq inputs _ (Quantizer.new_inv q), rfl⟩
  have h := Quantizer.run_prefix_error q hq inputs (Quantizer.new q) (Quantizer.new_inv q) n
  simpa [Quantizer.new] using h

/-- Witness for C1: the theorem applied at the quantum Q = 1000 and the
first two inputs of the quantizer unit test; the run itself evaluates to
the expected quantized outputs. -/
theorem quantizer_accumulated_error_witness :
    (Quantizer.new 1000).run [26692, 540290] = [27000, 540000] ∧
    2 * |natSumInt ([26692, 540290].take 2) -
         intSum (((Quantizer.new 1000).run [26692, 540290]).take 2)| ≤ (1000 : Int) := by
  refine ⟨by decide, ?_⟩
  exact (quantizer_accumulated_error_le_half_quantum 1000 (by norm_num) [26692, 540290]).1 2

/-! ## Cast file indexing (src/asciicast/mod.rs) -/

/-- Terminal information from `TermInfo` in src/asciicast/mod.rs. -/
structure TermInfo where
  cols : Option Nat
  rows : Option Nat
  termType : Option (List Char)
deriving DecidableEq, Repr

/-- Environment information from `EnvInfo` in src/asciicast/mod.rs. -/
structure EnvInfo where
  shell : Option (List Char)
  term : Option (List Char)
deriving DecidableEq, Repr

/-- The asciicast v3 header, from `Header` in src/asciicast/mod.rs. -/
structure Header where
  version : Nat
  width : Option Nat
  height : Option Nat
  term : Option TermInfo
  timestamp : Option Int
  duration : Option Rat
  title : Option (List Char)
  command : Option (List Char)
  env : Option EnvInfo
  idleTimeLimit : Option Rat
deriving DecidableEq, Repr

/-- A complete asciicast file, from `AsciicastFile` in src/asciicast/mod.rs. -/
structure AsciicastFile where
  header : Header
  events : List Event
deriving DecidableEq, Repr

/-- Running-prefix-sum helper for `cumulative_times`. -/
def cumulativeTimesAux (cumulative : Rat) : List Event → List Rat
  | [] => []
  | e :: es => (cumulative + e.time) :: cumulativeTimesAux (cumulative + e.time) es

/-- `AsciicastFile::cumulative_times`: cumulative time for each event. -/
def AsciicastFile.cumulativeTimes (f : AsciicastFile) : List Rat :=
  cumulativeTimesAux 0 f.events

/-- First index whose element strictly exceeds `t` (the loop body of
`find_insertion_index`). -/
def firstExceeding (t : Rat) : List Rat → Option Nat
  | [] => none
  | x :: xs => if t < x then some 0 else (firstExceeding t xs).map (· + 1)

/-- `AsciicastFile::find_insertion_index`: first index whose cumulative
time strictly exceeds the timestamp, or `events.len()` if none does. -/
def AsciicastFile.findInsertionIndex (f : AsciicastFile) (timestamp : Rat) : Nat :=
  match firstExceeding timestamp f.cumulativeTimes with
  | some i => i
  | none => f.events.length

theorem cumulativeTimesAux_length (c : Rat) :
    ∀ es : List Event, (cumulativeTimesAux c es).length = es.length
  | [] => rfl
  | e :: es => by
    simp [cumulativeTimesAux, cumulativeTimesAux_length (c + e.time) es]

theorem firstExceeding_none (t : Rat) :
    ∀ l : List Rat, firstExceeding t l = none → ∀ x ∈ l, x ≤ t
  | [], _, x, hx => by simp at hx
  | y :: ys, h, x, hx => by
    by_cases hy : t < y
    · simp [firstExceeding, hy] at h
    · rcases List.mem_cons.mp hx with rfl | hx'
      · exact le_of_not_lt hy
      · simp only [firstExceeding, hy, if_false, Option.map_eq_none'] at h
        exact firstExceeding_none t ys h x hx'

theorem firstExceeding_some (t : Rat) :
    ∀ (l : List Rat) (i : Nat), firstExceeding t l = some i →
      (∃ x, l[i]? = some x ∧ t < x) ∧ ∀ j < i, ∀ x, l[j]? = some x → x ≤ t
  | [], i, h => by simp [firstExceeding] at h
  | y :: ys, i, h => by
    by_cases hy : t < y
    · simp only [firstExceeding, hy, if_true, Option.some.injEq] at h
      subst h
      exact ⟨⟨y, by simp, hy⟩, fun j hj => by omega⟩
    · simp only [firstExceeding, hy, if_false] at h
      cases he : firstExceeding t ys with
      | none => rw [he] at h; exact absurd h (by simp)
      | some i' =>
        rw [he] at h
        simp only [Option.map_some', Option.some.injEq] at h
        subst h
        obtain ⟨⟨x, hx, htx⟩, hmin⟩ := firstExceeding_some t ys i' he
        refine ⟨⟨x, by simpa using hx, htx⟩, ?_⟩
        intro j hj z hz
        cases j with
        | zero => simp at hz; subst hz; exact le_of_not_lt hy
        | succ j' =>
          simp only [List.getElem?_cons_succ] at hz
          exact hmin j' (by omega) z hz

theorem findInsertionIndex_eq (f : AsciicastFile) (t : Rat) :
    f.findInsertionIndex t =
      match firstExceeding t f.cumulativeTimes with
      | some i => i
      | none => f.events.length := rfl

/-- C6: `find_insertion_index(t)` returns the smallest index whose
cumulative time strictly exceeds `t`, and `events.len()` when no
cumulative time exceeds `t`; concretely, on the cast with deltas
0.5, 0.1, 0.2 (cumulative times 0.5, 0.6, 0.8) it returns 1 for
t = 0.55, 3 for t = 10.0 and 0 for t = 0.1. -/
theorem find_insertion_index_first_exceeding (f : AsciicastFile) (t : Rat) :
    (f.findInsertionIndex t ≤ f.events.length) ∧
    (∀ j < f.findInsertionIndex t, ∀ x, (f.cumulativeTimes)[j]? = some x → x ≤ t) ∧
    (∀ x, (f.cumulativeTimes)[f.findInsertionIndex t]? = some x → t < x) ∧
    ((∀ x ∈ f.cumulativeTimes, x ≤ t) → f.findInsertionIndex t = f.events.length) ∧
    (∀ h : Header,
      (AsciicastFile.mk h
        [Event.output (1/2) [], Event.output (1/10) [], Event.output (1/5) []]).findInsertionIndex
          (11/20) = 1 ∧
      (AsciicastFile.mk h
        [Event.output (1/2) [], Event.output (1/10) [], Event.output (1/5) []]).findInsertionIndex
          10 = 3 ∧
      (AsciicastFile.mk h
        [Event.output (1/2) [], Event.output (1/10) [], Event.output (1/5) []]).findInsertionIndex
          (1/10) = 0) := by
  have hlen : (f.cumulativeTimes).length = f.events.length := by
    simpa [AsciicastFile.cumulativeTimes] using cumulativeTimesAux_length 0 f.events
  refine ⟨?_, ?_, ?_, ?_, ?_⟩
  · cases he : firstExceeding t f.cumulativeTimes with
    | none => simp [findInsertionIndex_eq, he]
    | some i =>
      simp only [findInsertionIndex_eq, he]
      obtain ⟨⟨x, hx, _⟩, _⟩ := firstExceeding_some t _ i he
      have : i < (f.cumulativeTimes).length := by
        by_contra hge
        rw [List.getElem?_eq_none (by omega)] at hx
        simp at hx
      omega
  · intro j hj x hx
    cases he : firstExceeding t f.cumulativeTimes with
    | none => exact firstExceeding_none t _ he x (List.getElem?_mem hx)
    | some i =>
      simp only [findInsertionIndex_eq, he] at hj
      exact (firstExceeding_some t _ i he).2 j hj x hx
  · intro x hx
    cases he : firstExceeding t f.cumulativeTimes with
    | none =>
      simp only [findInsertionIndex_eq, he] at hx
      rw [List.getElem?_eq_none (by omega)] at hx
      simp at hx
    | some i =>
      simp only [findInsertionIndex_eq, he] at hx
      obtain ⟨⟨y, hy, hty⟩, _⟩ := firstExceeding_some t _ i he
      rw [hx] at hy
      injection hy with hxy
      rw [hxy]; exact hty
  · intro hall
    cases he : firstExceeding t f.cumulativeTimes with
    | none => simp [findInsertionIndex_eq, he]
    | some i =>
      obtain ⟨⟨x, hx, htx⟩, _⟩ := firstExceeding_some t _ i he
      exact absurd (hall x (List.getElem?_mem hx)) (not_le.mpr htx)
  · intro h
    refine ⟨?_, ?_, ?_⟩ <;>
      simp [AsciicastFile.findInsertionIndex, AsciicastFile.cumulativeTimes,
        cumulativeTimesAux, firstExceeding, Event.output] <;> norm_num

/-! ## DeduplicateProgressLines (src/analyzer/transforms/dedupe.rs) -/

/-- The `DeduplicateProgressLines` transform state, from
src/analyzer/transforms/dedupe.rs: the current line buffer, the
timestamp of its first character, whether a `\r` occurred in the
current line, and the count of deduplicated progress lines. -/
structure DeduplicateProgressLines where
  currentLine : List Char
  lineStartTime : Rat
  isProgressLine : Bool
  dedupedCount : Nat
deriving DecidableEq, Repr

/-- `DeduplicateProgressLines::new`. -/
def DeduplicateProgressLines.new : DeduplicateProgressLines :=
  ⟨[], 0, false, 0⟩

/-- The character loop body of `DeduplicateProgressLines::transform`
(`for ch in event.data.chars()`), at cumulative input time
`cumulativeTime`. -/
def dedupeChar (cumulativeTime : Rat)
    (acc : DeduplicateProgressLines × List Event) (c : Char) :
    DeduplicateProgressLines × List Event :=
  let (s, out) := acc
  if c = '\r' then
    ({ s with isProgressLine := true, currentLine := [],
              lineStartTime := cumulativeTime }, out)
  else if c = '\n' then
    let out :=
      if s.currentLine ≠ [] then
        out ++ [Event.output s.lineStartTime (s.currentLine ++ ['\n'])]
      else
        out ++ [Event.output cumulativeTime ['\n']]
    ({ s with
        dedupedCount := if s.isProgressLine then s.dedupedCount + 1 else s.dedupedCount,
        currentLine := [], isProgressLine := false }, out)
  else
    let s :=
      if s.currentLine = [] then { s with lineStartTime := cumulativeTime } else s
    ({ s with currentLine := s.currentLine ++ [c] }, out)

/-- The per-event loop body of `DeduplicateProgressLines::transform`:
advance the cumulative time, flush and pass through non-output events,
and feed output payload characters through `dedupeChar`. -/
def dedupeEvent (acc : Rat × DeduplicateProgressLines × List Event) (ev : Event) :
    Rat × DeduplicateProgressLines × List Event :=
  let (cumulativeTime, s, out) := acc
  let cumulativeTime := cumulativeTime + ev.time
  if ev.isOutput then
    let (s, out) := ev.data.foldl (dedupeChar cumulativeTime) (s, out)
    (cumulativeTime, s, out)
  else
    let out :=
      if s.currentLine ≠ [] then
        out ++ [Event.output s.lineStartTime s.currentLine]
      else out
    (cumulativeTime, { s with currentLine := [] }, out ++ [ev])

/-- `DeduplicateProgressLines::transform`: run the event loop from
cumulative time 0, then flush trailing content without a newline. -/
def DeduplicateProgressLines.transform (self : DeduplicateProgressLines)
    (events : List Event) : DeduplicateProgressLines × List Event :=
  let (_, s, out) := events.foldl dedupeEvent (0, self, [])
  if s.currentLine ≠ [] then
    ({ s with currentLine := [] }, out ++ [Event.output s.lineStartTime s.currentLine])
  else
    (s, out)

/-- C5: applying `DeduplicateProgressLines` to the three spinner events
(0.1, "\r⠋ Building..."), (0.1, "\r⠙ Building..."),
(0.1, "\r✓ Build complete\n") yields exactly one event; it is an Output
event and its payload ends with "✓ Build complete\n". -/
theorem dedupe_spinner_collapses_to_final_line :
    (DeduplicateProgressLines.new.transform
      [Event.output (1/10) "\r⠋ Building...".toList,
       Event.output (1/10) "\r⠙ Building...".toList,
       Event.output (1/10) "\r✓ Build complete\n".toList]).2.length = 1 ∧
    ((DeduplicateProgressLines.new.transform
      [Event.output (1/10) "\r⠋ Building...".toList,
       Event.output (1/10) "\r⠙ Building...".toList,
       Event.output (1/10) "\r✓ Build complete\n".toList]).2.filter
        Event.isOutput).length = 1 ∧
    ∀ e ∈ (DeduplicateProgressLines.new.transform
      [Event.output (1/10) "\r⠋ Building...".toList,
       Event.output (1/10) "\r⠙ Building...".toList,
       Event.output (1/10) "\r✓ Build complete\n".toList]).2,
      e.isOutput = true ∧ "✓ Build complete\n".toList.isSuffixOf e.data = true := by
  refine ⟨by decide, by decide, by decide⟩

/-! ## NormalizeWhitespace and FilterEmptyEvents
(src/analyzer/transforms/normalize.rs) -/

/-- Unicode White_Space predicate, the semantics of Rust
`char::is_whitespace` used by `str::trim`. -/
def rustWhitespace (c : Char) : Bool :=
  c = ' ' ∨ c = '\t' ∨ c = '\n' ∨ c = '\x0b' ∨ c = '\x0c' ∨ c = '\r' ∨
  c = '\u0085' ∨ c = ' ' ∨ c = ' ' ∨
  (0x2000 ≤ c.toNat ∧ c.toNat ≤ 0x200A) ∨
  c = ' ' ∨ c = ' ' ∨ c = ' ' ∨ c = ' ' ∨ c = '　'

/-- Rust `str::trim`: drop whitespace from both ends. -/
def rustTrim (l : List Char) : List Char :=
  ((l.dropWhile rustWhitespace).reverse.dropWhile rustWhitespace).reverse

/-- The `NormalizeWhitespace` transform configuration, from
src/analyzer/transforms/normalize.rs. -/
structure NormalizeWhitespace where
  maxConsecutiveNewlines : Nat
deriving DecidableEq, Repr

/-- The character loop of `NormalizeWhitespace::transform`: collapse
runs of spaces/tabs to one space and cap consecutive newlines at `n`,
carrying the `prev_space` flag and the `newline_count`. -/
def normGo (n : Nat) (prevSpace : Bool) (newlineCount : Nat) : List Char → List Char
  | [] => []
  | c :: cs =>
    if c = '\n' then
      if newlineCount + 1 ≤ n then '\n' :: normGo n false (newlineCount + 1) cs
      else normGo n false (newlineCount + 1) cs
    else if c = ' ' ∨ c = '\t' then
      if prevSpace then normGo n true 0 cs else ' ' :: normGo n true 0 cs
    else c :: normGo n false 0 cs

/-- `NormalizeWhitespace::transform`: rewrite the payload of every
output event; leave other events alone. -/
def NormalizeWhitespace.transform (self : NormalizeWhitespace)
    (events : List Event) : List Event :=
  events.map fun ev =>
    if ev.isOutput then
      { ev with data := normGo self.maxConsecutiveNewlines false 0 ev.data }
    else ev

/-- `FilterEmptyEvents::transform`: keep every non-output event, and
keep output events whose trimmed payload is nonempty. -/
def FilterEmptyEvents.transform (events : List Event) : List Event :=
  events.filter fun ev =>
    if ev.isOutput then !(rustTrim ev.data).isEmpty else true

/-! ### Idempotence of the two transforms -/

/-- Normal-form predicate for `normGo` restart states: every character
is kept verbatim when reprocessing from state `(prevSpace, newlineCount)`. -/
def NormGood (n : Nat) : Bool → Nat → List Char → Prop
  | _, _, [] => True
  | ps, nc, c :: cs =>
    if c = '\n' then nc + 1 ≤ n ∧ NormGood n false (nc + 1) cs
    else if c = ' ' ∨ c = '\t' then ps = false ∧ c = ' ' ∧ NormGood n true 0 cs
    else NormGood n false 0 cs

theorem normGo_of_normGood (n : Nat) :
    ∀ (cs : List Char) (ps : Bool) (nc : Nat), NormGood n ps nc cs →
      normGo n ps nc cs = cs
  | [], _, _, _ => rfl
  | c :: cs, ps, nc, h => by
    by_cases hn : c = '\n'
    · simp only [NormGood, hn, if_true] at h
      simp only [normGo, hn, if_true, h.1, if_pos]
      rw [normGo_of_normGood n cs false (nc + 1) h.2]
    · by_cases hs : c = ' ' ∨ c = '\t'
      · simp only [NormGood, hn, if_false, hs, if_true] at h
        obtain ⟨hps, hc, hrest⟩ := h
        simp only [normGo, hn, if_false, hs, if_true, hps, Bool.false_eq_true]
        rw [normGo_of_normGood n cs true 0 hrest, hc]
      · simp only [NormGood, hn, if_false, hs] at h
        simp only [normGo, hn, if_false, hs]
        rw [normGo_of_normGood n cs false 0 h]

theorem normGood_mono (n : Nat) :
    ∀ (cs : List Char) (nc nc' : Nat), nc ≤ nc' → NormGood n false nc' cs →
      NormGood n false nc cs
  | [], _, _, _, _ => trivial
  | c :: cs, nc, nc', hle, h => by
    by_cases hn : c = '\n'
    · simp only [NormGood, hn, if_true] at h ⊢
      exact ⟨by omega, normGood_mono n cs (nc + 1) (nc' + 1) (by omega) h.2⟩
    · by_cases hs : c = ' ' ∨ c = '\t'
      · simp only [NormGood, hn, if_false, hs, if_true] at h ⊢
        exact h
      · simp only [NormGood, hn, if_false, hs] at h ⊢
        exact h

theorem normGo_normGood (n : Nat) (hn1 : 1 ≤ n) :
    ∀ (cs : List Char) (ps : Bool) (nc : Nat), (ps = true → nc = 0) →
      NormGood n ps nc (normGo n ps nc cs)
  | [], _, _, _ => trivial
  | c :: cs, ps, nc, hps => by
    by_cases hn : c = '\n'
    · by_cases hcap : nc + 1 ≤ n
      · simp only [normGo, hn, if_true, hcap, if_pos]
        show NormGood n ps nc ('\n' :: normGo n false (nc + 1) cs)
        simp only [NormGood, if_pos rfl]
        exact ⟨hcap, normGo_normGood n hn1 cs false (nc + 1) (by simp)⟩
      · simp only [normGo, hn, if_true, hcap, if_neg, if_false]
        have hps_false : ps = false := by
          cases hps' : ps with
          | false => rfl
          | true => exact absurd (hps hps') (by omega)
        subst hps_false
        exact normGood_mono n _ nc (nc + 1) (by omega)
          (normGo_normGood n hn1 cs false (nc + 1) (by simp))
    · by_cases hs : c = ' ' ∨ c = '\t'
      · cases hps' : ps with
        | true =>
          simp only [normGo, hn, if_false, hs, if_true, hps', if_pos]
          have : nc = 0 := hps hps'
          subst this
          exact normGo_normGood n hn1 cs true 0 (fun _ => rfl)
        | false =>
          simp only [normGo, hn, if_false, hs, if_true, hps', Bool.false_eq_true,
            if_neg, if_false]
          show NormGood n false nc (' ' :: normGo n true 0 cs)
          simp only [NormGood, if_neg (by decide : ¬(' ' = '\n')),
            if_pos (by simp : (' ' = ' ' ∨ ' ' = '\t'))]
          refine ⟨by trivial, by trivial, normGo_normGood n hn1 cs true 0 (fun _ => rfl)⟩
      · simp only [normGo, hn, if_false, hs]
        show NormGood n ps nc (c :: normGo n false 0 cs)
        simp only [NormGood, hn, if_false, hs]
        exact normGo_normGood n hn1 cs false 0 (by simp)

/-- C9 counterexample: with `max_consecutive_newlines = 0`,
`NormalizeWhitespace` is not idempotent on the single output event
" \n " (one pass gives "  ", a second pass gives " "), so the claim
fails for that setting. -/
theorem normalize_whitespace_not_idempotent_at_zero :
    (NormalizeWhitespace.mk 0).transform
        ((NormalizeWhitespace.mk 0).transform [Event.output 0 " \n ".toList]) ≠
      (NormalizeWhitespace.mk 0).transform [Event.output 0 " \n ".toList] := by
  decide

/-- C9 (amended): `FilterEmptyEvents` is idempotent on every event list,
and `NormalizeWhitespace` is idempotent on every event list for every
`max_consecutive_newlines` setting of at least 1 (it is not for the
setting 0). -/
theorem normalize_and_filter_idempotent :
    (∀ events : List Event,
      FilterEmptyEvents.transform (FilterEmptyEvents.transform events) =
        FilterEmptyEvents.transform events) ∧
    (∀ n : Nat, 1 ≤ n → ∀ events : List Event,
      (NormalizeWhitespace.mk n).transform ((NormalizeWhitespace.mk n).transform events) =
        (NormalizeWhitespace.mk n).transform events) := by
  constructor
  · intro events
    unfold FilterEmptyEvents.transform
    rw [List.filter_filter]
    congr 1
    funext ev
    cases h : (if ev.isOutput then !(rustTrim ev.data).isEmpty else true) <;> simp [h]
  · intro n hn events
    unfold NormalizeWhitespace.transform
    rw [List.map_map]
    congr 1
    funext ev
    by_cases h : ev.isOutput
    · simp only [Function.comp, h, if_pos]
      have hout : ({ ev with data := normGo n false 0 ev.data } : Event).isOutput = true := h
      simp only [hout, if_pos]
      congr 1
      exact normGo_of_normGood n _ false 0 (normGo_normGood n hn ev.data false 0 (by simp))
    · simp only [Function.comp, h]
      simp [h]

/-- Witness for C9: the amended theorem applied at
`max_consecutive_newlines = 2` and a concrete event list. -/
theorem normalize_and_filter_idempotent_witness :
    (NormalizeWhitespace.mk 2).transform
        ((NormalizeWhitespace.mk 2).transform [Event.output 0 "a  b\n\n\n".toList]) =
      (NormalizeWhitespace.mk 2).transform [Event.output 0 "a  b\n\n\n".toList] :=
  (normalize_and_filter_idempotent.2) 2 (by norm_num) [Event.output 0 "a  b\n\n\n".toList]

/-! ## Progress bar (src/player/render/progress.rs) -/

/-- Marker information for the progress bar, from `MarkerPosition` in
src/player/state.rs: cumulative time and label. -/
structure MarkerPosition where
  time : Rat
  label : List Char
deriving DecidableEq, Repr

/-- Rust `f64::clamp(lo, hi)` on exact rationals. -/
def rustClamp (x lo hi : Rat) : Rat := max lo (min x hi)

/-- Rust `as usize` on a non-NaN float: truncate towards zero and
saturate at 0, which agrees with `⌊x⌋.toNat` for every rational. -/
def ratToUsize (x : Rat) : Nat := (Int.floor x).toNat

/-- Marker cell index computed by the marker loop of
`build_progress_bar_chars`: `⌊(marker.time / total) · bar_width⌋` when
the total duration is positive, else 0. -/
def markerIdx (barWidth : Nat) (totalDuration : Rat) (marker : MarkerPosition) : Nat :=
  if 0 < totalDuration then
    ratToUsize ((marker.time / totalDuration) * (barWidth : Rat))
  else 0

/-- Loop body of `for marker in markers` in `build_progress_bar_chars`:
draw `◆` at the marker cell unless out of range or occupied by `⏺`. -/
def markerStep (barWidth : Nat) (totalDuration : Rat)
    (bar : List Char) (marker : MarkerPosition) : List Char :=
  if markerIdx barWidth totalDuration marker < barWidth ∧
      bar[markerIdx barWidth totalDuration marker]? ≠ some '⏺' then
    bar.set (markerIdx barWidth totalDuration marker) '◆'
  else bar

/-- `build_progress_bar_chars` from src/player/render/progress.rs:
progress ratio (1 when the duration is not positive), filled count,
a playhead at `filled` unless `filled = bar_width`, then one `◆` per
marker unless the playhead occupies that cell. -/
def buildProgressBarChars (barWidth : Nat) (currentTime totalDuration : Rat)
    (markers : List MarkerPosition) : List Char × Nat :=
  let progress : Rat :=
    if 0 < totalDuration then rustClamp (currentTime / totalDuration) 0 1 else 1
  let filled : Nat := ratToUsize ((barWidth : Rat) * progress)
  let bar : List Char := List.replicate barWidth '─'
  let bar : List Char := if filled < barWidth then bar.set filled '⏺' else bar
  let bar : List Char := markers.foldl (markerStep barWidth totalDuration) bar
  (bar, filled)

/-- The pure prefix of `render_progress_bar` (src/player/render/progress.rs,
lines 90–91): the rendered bar uses `bar_width = width − 14` (saturating). -/
def renderProgressBarChars (width : Nat) (currentTime totalDuration : Rat)
    (markers : List MarkerPosition) : List Char × Nat :=
  buildProgressBarChars (width - 14) currentTime totalDuration markers

theorem markerStep_length (w : Nat) (td : Rat) (bar : List Char)
    (m : MarkerPosition) :
    (markerStep w td bar m).length = bar.length := by
  unfold markerStep
  split
  · exact List.length_set ..
  · rfl

theorem markerFold_length (w : Nat) (td : Rat) :
    ∀ (ms : List MarkerPosition) (bar : List Char),
      (ms.foldl (markerStep w td) bar).length = bar.length
  | [], _ => rfl
  | m :: ms, bar => by
    rw [List.foldl_cons, markerFold_length w td ms, markerStep_length]

theorem markerStep_playhead (w : Nat) (td : Rat) (bar : List Char)
    (m : MarkerPosition) (p : Nat) :
    (markerStep w td bar m)[p]? = some '⏺' ↔ bar[p]? = some '⏺' := by
  unfold markerStep
  split
  · next hcond =>
    by_cases hp : p = markerIdx w td m
    · rw [hp]
      by_cases hlt : markerIdx w td m < bar.length
      · rw [List.getElem?_set_self hlt]
        constructor
        · intro h; exact absurd h (by simp)
        · intro h; exact absurd h hcond.2
      · rw [List.set_eq_of_length_le (by omega)]
    · rw [List.getElem?_set_ne (fun hne => hp hne.symm)]
  · exact Iff.rfl

theorem markerFold_playhead (w : Nat) (td : Rat) :
    ∀ (ms : List MarkerPosition) (bar : List Char) (p : Nat),
      (ms.foldl (markerStep w td) bar)[p]? = some '⏺' ↔ bar[p]? = some '⏺'
  | [], _, _ => Iff.rfl
  | m :: ms, bar, p => by
    rw [List.foldl_cons, markerFold_playhead w td ms _ p,
        markerStep_playhead w td bar m p]

theorem markerStep_diamond_mono (w : Nat) (td : Rat) (bar : List Char)
    (m : MarkerPosition) (p : Nat) (h : bar[p]? = some '◆') :
    (markerStep w td bar m)[p]? = some '◆' := by
  unfold markerStep
  split
  · by_cases hp : p = markerIdx w td m
    · subst hp
      rw [List.getElem?_set_self (List.getElem?_eq_some_iff.mp h).1]
    · rw [List.getElem?_set_ne (fun hne => hp hne.symm)]
      exact h
  · exact h

theorem markerFold_diamond_mono (w : Nat) (td : Rat) :
    ∀ (ms : List MarkerPosition) (bar : List Char) (p : Nat),
      bar[p]? = some '◆' →
      (ms.foldl (markerStep w td) bar)[p]? = some '◆'
  | [], _, _, h => h
  | m :: ms, bar, p, h => by
    rw [List.foldl_cons]
    exact markerFold_diamond_mono w td ms _ p (markerStep_diamond_mono w td bar m p h)

theorem markerFold_covers (w : Nat) (td : Rat) :
    ∀ (ms : List MarkerPosition) (bar : List Char), bar.length = w →
      ∀ m ∈ ms, markerIdx w td m < w →
        (ms.foldl (markerStep w td) bar)[markerIdx w td m]? = some '⏺' ∨
        (ms.foldl (markerStep w td) bar)[markerIdx w td m]? = some '◆'
  | [], _, _, m, hm, _ => by simp at hm
  | m0 :: ms, bar, hlen, m, hm, hcell => by
    rw [List.foldl_cons]
    rcases List.mem_cons.mp hm with rfl | hm'
    · -- the marker processed first: it becomes ⏺-preserved or ◆-monotone
      by_cases hph : bar[markerIdx w td m]? = some '⏺'
      · left
        rw [markerFold_playhead]
        unfold markerStep
        split
        · next hcond => exact absurd hph hcond.2
        · exact hph
      · right
        apply markerFold_diamond_mono
        unfold markerStep
        split
        · exact List.getElem?_set_self (by omega)
        · next hcond => exact absurd ⟨hcell, hph⟩ hcond
    · exact markerFold_covers w td ms _ (by rw [markerStep_length]; exact hlen)
        m hm' hcell

/-- C8: with a positive total duration, `build_progress_bar_chars`
computes `filled = ⌊bar_width · clamp(current/total, 0, 1)⌋`, the bar
has length `bar_width`, the playhead `⏺` sits at index `filled` unless
`filled = bar_width`, every marker whose cell
`⌊(marker.time/total) · bar_width⌋` is in range is drawn as `◆` there
unless the playhead occupies that cell (the playhead wins), and the
rendered bar of `render_progress_bar` has width `cols − 14`. -/
theorem build_progress_bar_chars_spec (w : Nat) (current total : Rat)
    (markers : List MarkerPosition) (htotal : 0 < total) :
    (buildProgressBarChars w current total markers).2 =
      ratToUsize ((w : Rat) * rustClamp (current / total) 0 1) ∧
    (buildProgressBarChars w current total markers).1.length = w ∧
    (buildProgressBarChars w current total markers).2 ≤ w ∧
    ((buildProgressBarChars w current total markers).2 < w →
      (buildProgressBarChars w current total markers).1[
        (buildProgressBarChars w current total markers).2]? = some '⏺') ∧
    (∀ m : MarkerPosition,
      markerIdx w total m = ratToUsize ((m.time / total) * (w : Rat))) ∧
    (∀ m ∈ markers, markerIdx w total m < w →
      (buildProgressBarChars w current total markers).1[markerIdx w total m]? =
        some (if markerIdx w total m = (buildProgressBarChars w current total markers).2
          then '⏺' else '◆')) ∧
    (∀ cols : Nat,
      (renderProgressBarChars cols current total markers).1.length = cols - 14) := by
  have hprog : (if 0 < total then rustClamp (current / total) 0 1 else 1) =
      rustClamp (current / total) 0 1 := if_pos htotal
  set fl : Nat := ratToUsize ((w : Rat) * rustClamp (current / total) 0 1) with hfl
  have hfl_le : fl ≤ w := by
    rw [hfl]
    unfold ratToUsize
    have hcl : rustClamp (current / total) 0 1 ≤ 1 := by
      unfold rustClamp
      apply max_le
      · norm_num
      · exact min_le_right _ _
    have h1 : (w : Rat) * rustClamp (current / total) 0 1 ≤ (w : Rat) := by
      calc (w : Rat) * rustClamp (current / total) 0 1 ≤ (w : Rat) * 1 := by
            apply mul_le_mul_of_nonneg_left hcl
            exact_mod_cast Nat.zero_le w
        _ = (w : Rat) := mul_one _
    have h2 : Int.floor ((w : Rat) * rustClamp (current / total) 0 1) ≤ (w : Int) := by
      have := Int.floor_le_floor h1
      simpa using this
    omega
  have hbuild : buildProgressBarChars w current total markers =
      (markers.foldl (markerStep w total)
        (if fl < w then (List.replicate w '─').set fl '⏺' else List.replicate w '─'),
       fl) := by
    simp only [buildProgressBarChars]
    rw [hprog]
  have hsnd : (buildProgressBarChars w current total markers).2 = fl := by rw [hbuild]
  have hfst : (buildProgressBarChars w current total markers).1 =
      markers.foldl (markerStep w total)
        (if fl < w then (List.replicate w '─').set fl '⏺' else List.replicate w '─') := by
    rw [hbuild]
  have hbase_len :
      (if fl < w then (List.replicate w '─').set fl '⏺' else List.replicate w '─').length
        = w := by
    split <;> simp
  have hbase_playhead : ∀ p : Nat,
      (if fl < w then (List.replicate w '─').set fl '⏺' else List.replicate w '─')[p]? =
        some '⏺' ↔ (p = fl ∧ fl < w) := by
    intro p
    split
    · next hflw =>
      by_cases hp : p = fl
      · subst hp
        rw [List.getElem?_set_self (by simpa using hflw)]
        simp [hflw]
      · rw [List.getElem?_set_ne (by omega)]
        constructor
        · intro h
          by_cases hpw : p < w
          · rw [List.getElem?_replicate, if_pos hpw] at h
            exact absurd h (by simp)
          · rw [List.getElem?_eq_none (by simpa using not_lt.mp hpw)] at h
            exact absurd h (by simp)
        · intro h; exact absurd h.1 hp
    · next hflw =>
      constructor
      · intro h
        by_cases hpw : p < w
        · rw [List.getElem?_replicate, if_pos hpw] at h
          exact absurd h (by simp)
        · rw [List.getElem?_eq_none (by simpa using not_lt.mp hpw)] at h
          exact absurd h (by simp)
      · intro h; exact absurd h.2 hflw
  refine ⟨hsnd, ?_, ?_, ?_, ?_, ?_, ?_⟩
  · rw [hfst, markerFold_length]
    exact hbase_len
  · rw [hsnd]; exact hfl_le
  · intro hlt
    rw [hsnd] at hlt
    rw [hfst, hsnd, markerFold_playhead]
    exact (hbase_playhead fl).mpr ⟨rfl, hlt⟩
  · intro m
    unfold markerIdx
    rw [if_pos htotal]
  · intro m hm hcell
    rw [hfst, hsnd]
    have hcov := markerFold_covers w total markers _ hbase_len m hm hcell
    by_cases heq : markerIdx w total m = fl
    · rw [if_pos heq]
      rcases hcov with h | h
      · exact h
      · -- the diamond case cannot happen at the playhead cell
        have hph := markerFold_playhead w total markers
          (if fl < w then (List.replicate w '─').set fl '⏺' else List.replicate w '─')
          (markerIdx w total m)
        have hflw : fl < w := heq ▸ hcell
        have : (markers.foldl (markerStep w total)
            (if fl < w then (List.replicate w '─').set fl '⏺'
             else List.replicate w '─'))[markerIdx w total m]? = some '⏺' :=
          hph.mpr ((hbase_playhead _).mpr ⟨heq, hflw⟩)
        rw [this] at h
        exact absurd h (by simp)
    · rw [if_neg heq]
      rcases hcov with h | h
      · have := (markerFold_playhead w total markers _ (markerIdx w total m)).mp h
        have := (hbase_playhead _).mp this
        exact absurd this.1 heq
      · exact h
  · intro cols
    simp only [renderProgressBarChars, buildProgressBarChars]
    rw [markerFold_length]
    split <;> split <;> simp

/-- Witness for C8: the theorem applied at the claim's concrete instance
bar_width = 10, current = 5, total = 10, markers at t = 2 and t = 8:
index 5 is the playhead and indices 2 and 8 are marker diamonds. -/
theorem build_progress_bar_chars_witness :
    (buildProgressBarChars 10 5 10 [⟨2, []⟩, ⟨8, []⟩]).2 = 5 ∧
    (buildProgressBarChars 10 5 10 [⟨2, []⟩, ⟨8, []⟩]).1[5]? = some '⏺' ∧
    (buildProgressBarChars 10 5 10 [⟨2, []⟩, ⟨8, []⟩]).1[2]? = some '◆' ∧
    (buildProgressBarChars 10 5 10 [⟨2, []⟩, ⟨8, []⟩]).1[8]? = some '◆' := by
  have h := build_progress_bar_chars_spec 10 5 10 [⟨2, []⟩, ⟨8, []⟩] (by norm_num)
  obtain ⟨hfl, _, _, hph, _, hmk, _⟩ := h
  have hfl5 : (buildProgressBarChars 10 5 10 [⟨2, []⟩, ⟨8, []⟩]).2 = 5 := by
    rw [hfl]
    unfold ratToUsize rustClamp
    norm_num
    omega
  have hcell2 : markerIdx 10 10 ⟨2, []⟩ = 2 := by
    unfold markerIdx ratToUsize
    norm_num
    omega
  have hcell8 : markerIdx 10 10 ⟨8, []⟩ = 8 := by
    unfold markerIdx ratToUsize
    norm_num
    omega
  refine ⟨hfl5, ?_, ?_, ?_⟩
  · rw [← hfl5]
    exact hph (by omega)
  · have := hmk ⟨2, []⟩ (by simp) (by rw [hcell2]; omega)
    rw [hcell2, hfl5] at this
    simpa using this
  · have := hmk ⟨8, []⟩ (by simp) (by rw [hcell8]; omega)
    rw [hcell8, hfl5] at this
    simpa using this

/-! ## Player state machine (src/player/state.rs, src/player/input) -/

/-- The central playback state, from `PlaybackState` in
src/player/state.rs.  `startTime` models the wall-clock `Instant` as an
abstract tick count. -/
structure PlaybackState where
  paused : Bool
  speed : Rat
  eventIdx : Nat
  currentTime : Rat
  cumulativeTime : Rat
  startTime : Nat
  timeOffset : Rat
  showHelp : Bool
  viewportMode : Bool
  freeMode : Bool
  freeLine : Nat
  prevFreeLine : Nat
  freeLineOnly : Bool
  termCols : Nat
  termRows : Nat
  viewRows : Nat
  viewCols : Nat
  viewRowOffset : Nat
  viewColOffset : Nat
  needsRender : Bool
deriving DecidableEq, Repr

/-- `PlaybackState::STATUS_LINES`. -/
def PlaybackState.STATUS_LINES : Nat := 3

/-- `PlaybackState::new`, with `now` standing for `Instant::now()`. -/
def PlaybackState.new (termCols termRows : Nat) (now : Nat) : PlaybackState where
  paused := false
  speed := 1
  eventIdx := 0
  currentTime := 0
  cumulativeTime := 0
  startTime := now
  timeOffset := 0
  showHelp := false
  viewportMode := false
  freeMode := false
  freeLine := 0
  prevFreeLine := 0
  freeLineOnly := false
  termCols := termCols
  termRows := termRows
  viewRows := termRows - PlaybackState.STATUS_LINES
  viewCols := termCols
  viewRowOffset := 0
  viewColOffset := 0
  needsRender := true

/-- `PlaybackState::toggle_pause`: flip `paused`; when resuming, exit
free mode and reset the timing origin. -/
def PlaybackState.togglePause (s : PlaybackState) (now : Nat) : PlaybackState :=
  let s := { s with paused := !s.paused }
  let s :=
    if !s.paused then
      { s with freeMode := false, startTime := now, timeOffset := s.currentTime }
    else s
  { s with needsRender := true }

/-- Modelled from the spec: `find_event_index_at_time` lives in
src/player/playback/seeking.rs, which is absent from the source
snapshot (only `pub use seeking::{find_event_index_at_time, seek_to_time}`
remains).  Per the seeking contract of the spec, a seek recomputes
`(event_idx, cumulative_time)` for the target time: the number of
events whose cumulative time is at most the target, and the cumulative
time of those events — the same loop convention as the replay loop in
`handle_seek_forward`. -/
def findEventIndexAtTime (cast : AsciicastFile) (t : Rat) : Nat × Rat :=
  go cast.events 0 0
where
  go : List Event → Nat → Rat → Nat × Rat
    | [], idx, cumulative => (idx, cumulative)
    | e :: es, idx, cumulative =>
      if cumulative + e.time ≤ t then go es (idx + 1) (cumulative + e.time)
      else (idx, cumulative)

/-- `handle_jump_to_marker` from src/player/input/keyboard.rs, restricted
to its effect on the playback state (`seek_to_time` rebuilds only the
terminal buffer and does not touch `PlaybackState`). -/
def handleJumpToMarker (s : PlaybackState) (cast : AsciicastFile)
    (markers : List MarkerPosition) : PlaybackState :=
  match markers.find? (fun m => s.currentTime + 1/10 < m.time) with
  | some next =>
    let s := { s with currentTime := next.time }
    let s := { s with timeOffset := s.currentTime }
    let (idx, cumulative) := findEventIndexAtTime cast s.currentTime
    { s with eventIdx := idx, cumulativeTime := cumulative,
             paused := true, needsRender := true }
  | none => s

/-- `handle_seek_backward` from src/player/input/keyboard.rs, restricted
to its effect on the playback state. -/
def handleSeekBackward (s : PlaybackState) (cast : AsciicastFile)
    (amount : Rat) (now : Nat) : PlaybackState :=
  let newTime := max (s.currentTime - amount) 0
  let s := { s with currentTime := newTime }
  let s := { s with timeOffset := s.currentTime, startTime := now }
  let (idx, cumulative) := findEventIndexAtTime cast s.currentTime
  { s with eventIdx := idx, cumulativeTime := cumulative, needsRender := true }

/-- `handle_seek_forward` from src/player/input/keyboard.rs, restricted
to its effect on the playback state (the buffer rebuild loop only
processes output/resize data into the terminal buffer). -/
def handleSeekForward (s : PlaybackState) (cast : AsciicastFile)
    (amount totalDuration : Rat) (now : Nat) : PlaybackState :=
  let newTime := min (s.currentTime + amount) totalDuration
  let s := { s with currentTime := newTime }
  let s := { s with timeOffset := s.currentTime, startTime := now }
  let (idx, cumulative) := findEventIndexAtTime cast s.currentTime
  { s with eventIdx := idx, cumulativeTime := cumulative, needsRender := true }

/-- `handle_seek_to_start` from src/player/input/keyboard.rs, restricted
to its effect on the playback state. -/
def handleSeekToStart (s : PlaybackState) (_cast : AsciicastFile)
    (now : Nat) : PlaybackState :=
  { s with currentTime := 0, timeOffset := 0, startTime := now,
           eventIdx := 0, cumulativeTime := 0,
           viewRowOffset := 0, viewColOffset := 0, needsRender := true }

/-- `handle_seek_to_end` from src/player/input/keyboard.rs, restricted
to its effect on the playback state. -/
def handleSeekToEnd (s : PlaybackState) (cast : AsciicastFile)
    (totalDuration : Rat) : PlaybackState :=
  { s with currentTime := totalDuration, timeOffset := totalDuration,
           eventIdx := cast.events.length, cumulativeTime := totalDuration,
           paused := true, needsRender := true }

/-- Mouse buttons, from crossterm's `MouseButton`. -/
inductive MouseButton where
  | Left
  | Right
  | Middle
deriving DecidableEq, Repr

/-- Mouse event kinds, from crossterm's `MouseEventKind` (the kinds the
player dispatches on). -/
inductive MouseEventKind where
  | Down (button : MouseButton)
  | Up (button : MouseButton)
  | Drag (button : MouseButton)
  | Moved
  | ScrollDown
  | ScrollUp
deriving DecidableEq, Repr

/-- A mouse event, from crossterm's `MouseEvent`. -/
structure MouseEvent where
  kind : MouseEventKind
  column : Nat
  row : Nat
deriving DecidableEq, Repr

/-- `handle_mouse_event` from src/player/input/mouse.rs, restricted to
its effect on the playback state.  The setter methods
`set_current_time`, `set_time_offset` and `set_event_position` are
absent from the source snapshot; modelled from the spec's seeking
contract as plain field assignments. -/
def handleMouseEvent (mouse : MouseEvent) (s : PlaybackState)
    (cast : AsciicastFile) (totalDuration : Rat) (now : Nat) : PlaybackState :=
  match mouse.kind with
  | MouseEventKind.Down MouseButton.Left =>
    let progressRow := s.termRows - 2
    if mouse.row = progressRow then
      let barStart : Nat := 1
      let barWidth : Nat := s.termCols - 14
      if barStart ≤ mouse.column ∧ mouse.column < barStart + barWidth then
        let clickPos : Rat := ((mouse.column - barStart : Nat) : Rat)
        let ratio : Rat := clickPos / (barWidth : Rat)
        let newTime : Rat := rustClamp (ratio * totalDuration) 0 totalDuration
        let s := { s with freeMode := false }
        let s := { s with currentTime := newTime }
        let s := { s with timeOffset := s.currentTime }
        let s := { s with startTime := now }
        let (idx, cumulative) := findEventIndexAtTime cast s.currentTime
        { s with eventIdx := idx, cumulativeTime := cumulative,
                 paused := false, needsRender := true }
      else s
    else s
  | _ => s

/-- Header with just the mandatory version field set, for concrete
examples. -/
def sampleHeader : Header :=
  ⟨3, none, none, none, none, none, none, none, none, none⟩

/-- C4 counterexample: in a state with free mode active, a keyboard seek
backward (and likewise Home) leaves `free_mode` set: the keyboard seek
handlers never clear it, contradicting the claim that every seek exits
free mode. -/
theorem keyboard_seek_does_not_exit_free_mode :
    ({ PlaybackState.new 80 27 0 with freeMode := true } : PlaybackState).freeMode = true ∧
    (handleSeekBackward { PlaybackState.new 80 27 0 with freeMode := true }
      ⟨sampleHeader, []⟩ 5 1).freeMode = true ∧
    (handleSeekToStart { PlaybackState.new 80 27 0 with freeMode := true }
      ⟨sampleHeader, []⟩ 1).freeMode = true := by
  refine ⟨rfl, rfl, rfl⟩

/-- C4 (amended): resuming playback via `toggle_pause` and a left click
on the progress bar clear `free_mode`; the keyboard seek handlers
(seek backward/forward, Home, End, marker jump) leave `free_mode`
unchanged. -/
theorem free_mode_exit_on_resume_and_click :
    (∀ (s : PlaybackState) (now : Nat), s.paused = true →
      (s.togglePause now).freeMode = false) ∧
    (∀ (mouse : MouseEvent) (s : PlaybackState) (cast : AsciicastFile)
        (totalDuration : Rat) (now : Nat),
      mouse.kind = MouseEventKind.Down MouseButton.Left →
      mouse.row = s.termRows - 2 →
      1 ≤ mouse.column → mouse.column < 1 + (s.termCols - 14) →
      (handleMouseEvent mouse s cast totalDuration now).freeMode = false) ∧
    (∀ (s : PlaybackState) (cast : AsciicastFile) (amount : Rat) (now : Nat),
      (handleSeekBackward s cast amount now).freeMode = s.freeMode) ∧
    (∀ (s : PlaybackState) (cast : AsciicastFile) (amount totalDuration : Rat) (now : Nat),
      (handleSeekForward s cast amount totalDuration now).freeMode = s.freeMode) ∧
    (∀ (s : PlaybackState) (cast : AsciicastFile) (now : Nat),
      (handleSeekToStart s cast now).freeMode = s.freeMode) ∧
    (∀ (s : PlaybackState) (cast : AsciicastFile) (totalDuration : Rat),
      (handleSeekToEnd s cast totalDuration).freeMode = s.freeMode) ∧
    (∀ (s : PlaybackState) (cast : AsciicastFile) (markers : List MarkerPosition),
      (handleJumpToMarker s cast markers).freeMode = s.freeMode) := by
  refine ⟨?_, ?_, ?_, ?_, ?_, ?_, ?_⟩
  · intro s now hp
    unfold PlaybackState.togglePause
    simp [hp]
  · intro mouse s cast totalDuration now hkind hrow hc1 hc2
    unfold handleMouseEvent
    rw [hkind]
    simp only [hrow, if_pos rfl]
    have hcond : 1 ≤ mouse.column ∧ mouse.column < 1 + (s.termCols - 14) := ⟨hc1, hc2⟩
    rw [if_pos hcond]
    simp
  · intro s cast amount now
    rfl
  · intro s cast amount totalDuration now
    rfl
  · intro s cast now
    rfl
  · intro s cast totalDuration
    rfl
  · intro s cast markers
    unfold handleJumpToMarker
    cases markers.find? (fun m => s.currentTime + 1/10 < m.time) <;> rfl

/-- Witness for C4: the amended theorem applied to a concrete paused
free-mode state (resume clears free mode) and a concrete progress-bar
click. -/
theorem free_mode_exit_witness :
    (({ PlaybackState.new 80 27 0 with freeMode := true, paused := true }
        : PlaybackState).togglePause 1).freeMode = false ∧
    (handleMouseEvent ⟨MouseEventKind.Down MouseButton.Left, 34, 25⟩
      { PlaybackState.new 80 27 0 with freeMode := true }
      ⟨sampleHeader, []⟩ 100 1).freeMode = false := by
  constructor
  · exact free_mode_exit_on_resume_and_click.1 _ 1 rfl
  · exact free_mode_exit_on_resume_and_click.2.1 _ _ _ 100 1 rfl rfl
      (by decide) (by decide)

/-! ### Marker navigation (C7) -/

theorem find?_first (p : MarkerPosition → Bool) :
    ∀ (ms : List MarkerPosition) (m : MarkerPosition), ms.find? p = some m →
      ∃ i : Nat, ms[i]? = some m ∧ p m = true ∧
        ∀ j < i, ∀ m', ms[j]? = some m' → p m' = false
  | [], m, h => by simp at h
  | m0 :: ms, m, h => by
    by_cases hp : p m0
    · rw [List.find?_cons_of_pos _ hp] at h
      injection h with h
      subst h
      exact ⟨0, by simp, hp, fun j hj => by omega⟩
    · rw [List.find?_cons_of_neg _ (by simpa using hp)] at h
      obtain ⟨i, hi, hpm, hmin⟩ := find?_first p ms m h
      refine ⟨i + 1, by simpa using hi, hpm, ?_⟩
      intro j hj m' hm'
      cases j with
      | zero =>
        simp only [List.getElem?_cons_zero] at hm'
        injection hm' with hm'
        subst hm'
        simpa using hp
      | succ j' =>
        simp only [List.getElem?_cons_succ] at hm'
        exact hmin j' (by omega) m' hm'

/-- C7: pressing `m` seeks to the first marker in the list whose
cumulative time strictly exceeds `current_time + 0.1`: when such a
marker exists, `current_time` and `time_offset` both become exactly
that marker's time; when none exists the playback state is unchanged;
and the marker chosen depends only on `current_time` and the marker
list (no other state), so each press is a discrete seek. -/
theorem jump_to_marker_dead_band (s : PlaybackState) (cast : AsciicastFile)
    (markers : List MarkerPosition) :
    (∀ m : MarkerPosition,
      markers.find? (fun m' => s.currentTime + 1/10 < m'.time) = some m →
      (handleJumpToMarker s cast markers).currentTime = m.time ∧
      (handleJumpToMarker s cast markers).timeOffset = m.time ∧
      s.currentTime + 1/10 < m.time ∧
      ∃ i : Nat, markers[i]? = some m ∧
        ∀ j < i, ∀ m', markers[j]? = some m' → ¬ (s.currentTime + 1/10 < m'.time)) ∧
    (markers.find? (fun m' => s.currentTime + 1/10 < m'.time) = none →
      handleJumpToMarker s cast markers = s) ∧
    (∀ s' : PlaybackState, s'.currentTime = s.currentTime →
      markers.find? (fun m' => s'.currentTime + 1/10 < m'.time) =
        markers.find? (fun m' => s.currentTime + 1/10 < m'.time)) := by
  refine ⟨?_, ?_, ?_⟩
  · intro m hfind
    obtain ⟨i, hi, hpm, hmin⟩ := find?_first _ markers m hfind
    refine ⟨?_, ?_, by simpa using hpm, i, hi, ?_⟩
    · unfold handleJumpToMarker
      rw [hfind]
    · unfold handleJumpToMarker
      rw [hfind]
    · intro j hj m' hm'
      have := hmin j hj m' hm'
      simpa using this
  · intro hfind
    unfold handleJumpToMarker
    rw [hfind]
  · intro s' hs'
    rw [hs']

/-- Witness for C7: the theorem applied at a concrete state
(current_time = 0) and markers at cumulative times 0.05 and 2: the
press skips the first marker (inside the 0.1 s dead band) and lands on
the second, setting both `current_time` and `time_offset` to 2. -/
theorem jump_to_marker_witness :
    (handleJumpToMarker (PlaybackState.new 80 27 0) ⟨sampleHeader, []⟩
      [⟨1/20, []⟩, ⟨2, []⟩]).currentTime = 2 ∧
    (handleJumpToMarker (PlaybackState.new 80 27 0) ⟨sampleHeader, []⟩
      [⟨1/20, []⟩, ⟨2, []⟩]).timeOffset = 2 := by
  have hfind : ([⟨1/20, []⟩, ⟨2, []⟩] : List MarkerPosition).find?
      (fun m' => (PlaybackState.new 80 27 0).currentTime + 1/10 < m'.time) =
      some ⟨2, []⟩ := by
    have h1 : decide ((PlaybackState.new 80 27 0).currentTime + 1/10 < (1/20 : Rat)) =
        false := by
      rw [decide_eq_false_iff_not]
      show ¬ ((0 : Rat) + 1/10 < (1/20 : Rat))
      norm_num
    have h2 : decide ((PlaybackState.new 80 27 0).currentTime + 1/10 < (2 : Rat)) =
        true := by
      rw [decide_eq_true_eq]
      show ((0 : Rat) + 1/10 < (2 : Rat))
      norm_num
    simp only [List.find?, h1, h2]
  have h := (jump_to_marker_dead_band (PlaybackState.new 80 27 0)
    ⟨sampleHeader, []⟩ [⟨1/20, []⟩, ⟨2, []⟩]).1 ⟨2, []⟩ hfind
  exact ⟨h.1, h.2.1⟩

/-! ## Absolute timestamps of deduplicated lines (C10)

Specification reference built from the claim's words: process the same
character stream, but tag every character with the cumulative input
time of its event, and emit each line with the tag of its *first
character* as the event time.  The refinement theorem below shows the
source transform equals this reference, so every emitted Output event
carries the absolute cumulative time at which the first character of
its line arrived. -/

/-- Spec reference for C10 (claim's words, not the source): character
step over a line of time-tagged characters. -/
def specCharStep (t : Rat) (acc : List (Rat × Char) × List Event) (c : Char) :
    List (Rat × Char) × List Event :=
  let (line, out) := acc
  if c = '\r' then ([], out)
  else if c = '\n' then
    match line with
    | [] => ([], out ++ [Event.output t ['\n']])
    | (t0, _) :: _ => ([], out ++ [Event.output t0 (line.map Prod.snd ++ ['\n'])])
  else (line ++ [(t, c)], out)

/-- Spec reference for C10 (claim's words, not the source): event step;
non-output events flush the pending tagged line at the tag of its first
character. -/
def specEventStep (acc : Rat × List (Rat × Char) × List Event) (ev : Event) :
    Rat × List (Rat × Char) × List Event :=
  let (cumulative, line, out) := acc
  let cumulative := cumulative + ev.time
  if ev.isOutput then
    let (line, out) := ev.data.foldl (specCharStep cumulative) (line, out)
    (cumulative, line, out)
  else
    let out :=
      match line with
      | [] => out
      | (t0, _) :: _ => out ++ [Event.output t0 (line.map Prod.snd)]
    (cumulative, [], out ++ [ev])

/-- Spec reference for C10 (claim's words, not the source): emitted
output events carry the cumulative input time at which the first
character of their payload arrived. -/
def dedupeSpec (events : List Event) : List Event :=
  match events.foldl specEventStep (0, [], []) with
  | (_, [], out) => out
  | (_, (t0, c0) :: rest, out) =>
    out ++ [Event.output t0 (((t0, c0) :: rest).map Prod.snd)]

/-- Relation between the source dedupe state and the spec's tagged
line: same characters, and the recorded line start time is the tag of
the first character whenever the line is nonempty. -/
def DedupeRel (s : DeduplicateProgressLines) (line : List (Rat × Char)) : Prop :=
  s.currentLine = line.map Prod.snd ∧
  ∀ t0 c0 rest, line = (t0, c0) :: rest → s.lineStartTime = t0

theorem dedupeChar_cr (cum : Rat) (s : DeduplicateProgressLines) (out : List Event) :
    dedupeChar cum (s, out) '\r' =
      ({ s with isProgressLine := true, currentLine := [],
                lineStartTime := cum }, out) := rfl

theorem dedupeChar_nl (cum : Rat) (s : DeduplicateProgressLines) (out : List Event) :
    dedupeChar cum (s, out) '\n' =
      ({ s with
          dedupedCount := if s.isProgressLine then s.dedupedCount + 1 else s.dedupedCount,
          currentLine := [], isProgressLine := false },
       if s.currentLine ≠ [] then
         out ++ [Event.output s.lineStartTime (s.currentLine ++ ['\n'])]
       else
         out ++ [Event.output cum ['\n']]) := rfl

theorem dedupeChar_other (cum : Rat) (s : DeduplicateProgressLines) (out : List Event)
    (c : Char) (h1 : ¬(c = '\r')) (h2 : ¬(c = '\n')) :
    dedupeChar cum (s, out) c =
      (if s.currentLine = [] then
        { s with lineStartTime := cum, currentLine := s.currentLine ++ [c] }
       else { s with currentLine := s.currentLine ++ [c] }, out) := by
  simp only [dedupeChar]
  rw [if_neg h1, if_neg h2]
  split <;> rfl

theorem specCharStep_cr (t : Rat) (line : List (Rat × Char)) (out : List Event) :
    specCharStep t (line, out) '\r' = ([], out) := rfl

theorem specCharStep_nl (t : Rat) (line : List (Rat × Char)) (out : List Event) :
    specCharStep t (line, out) '\n' =
      ([], match line with
           | [] => out ++ [Event.output t ['\n']]
           | (t0, _) :: _ => out ++ [Event.output t0 (line.map Prod.snd ++ ['\n'])]) := by
  cases line with
  | nil => rfl
  | cons hd tl => obtain ⟨t0, c0⟩ := hd; rfl

theorem specCharStep_other (t : Rat) (line : List (Rat × Char)) (out : List Event)
    (c : Char) (h1 : ¬(c = '\r')) (h2 : ¬(c = '\n')) :
    specCharStep t (line, out) c = (line ++ [(t, c)], out) := by
  simp only [specCharStep]
  rw [if_neg h1, if_neg h2]

theorem dedupeChar_refines (cum : Rat) (c : Char) (s : DeduplicateProgressLines)
    (line : List (Rat × Char)) (out : List Event) (h : DedupeRel s line) :
    DedupeRel (dedupeChar cum (s, out) c).1 (specCharStep cum (line, out) c).1 ∧
    (dedupeChar cum (s, out) c).2 = (specCharStep cum (line, out) c).2 := by
  obtain ⟨hchars, hstart⟩ := h
  by_cases hr : c = '\r'
  · subst hr
    rw [dedupeChar_cr, specCharStep_cr]
    exact ⟨⟨rfl, fun t0 c0 rest hh => by simp at hh⟩, rfl⟩
  · by_cases hn : c = '\n'
    · subst hn
      rw [dedupeChar_nl, specCharStep_nl]
      refine ⟨⟨rfl, fun t0 c0 rest hh => by simp at hh⟩, ?_⟩
      cases hline : line with
      | nil =>
        have hempty : s.currentLine = [] := by rw [hline] at hchars; simpa using hchars
        show (if s.currentLine ≠ [] then
            out ++ [Event.output s.lineStartTime (s.currentLine ++ ['\n'])]
          else out ++ [Event.output cum ['\n']]) = _
        rw [if_neg (by simp [hempty])]
      | cons hd tl =>
        obtain ⟨t0, c0⟩ := hd
        rw [hline] at hchars
        have hne : s.currentLine ≠ [] := by rw [hchars]; simp
        have hst : s.lineStartTime = t0 := hstart t0 c0 tl hline
        show (if s.currentLine ≠ [] then
            out ++ [Event.output s.lineStartTime (s.currentLine ++ ['\n'])]
          else out ++ [Event.output cum ['\n']]) = _
        rw [if_pos hne, hchars, hst]
    · rw [dedupeChar_other cum s out c hr hn, specCharStep_other cum line out c hr hn]
      refine ⟨⟨?_, ?_⟩, rfl⟩
      · show (if s.currentLine = [] then
            { s with lineStartTime := cum, currentLine := s.currentLine ++ [c] }
          else { s with currentLine := s.currentLine ++ [c] }).currentLine =
            (line ++ [(cum, c)]).map Prod.snd
        split <;> rw [hchars] <;> simp
      · intro t0 c0 rest hrest
        cases hline : line with
        | nil =>
          have hempty : s.currentLine = [] := by rw [hline] at hchars; simpa using hchars
          rw [hline] at hrest
          simp only [List.nil_append] at hrest
          injection hrest with h1 h2
          injection h1 with h3 h4
          show (if s.currentLine = [] then
              { s with lineStartTime := cum, currentLine := s.currentLine ++ [c] }
            else { s with currentLine := s.currentLine ++ [c] }).lineStartTime = t0
          rw [if_pos hempty, ← h3]
        | cons hd tl =>
          obtain ⟨t1, c1⟩ := hd
          rw [hline] at hchars
          have hne : ¬(s.currentLine = []) := by rw [hchars]; simp
          rw [hline] at hrest
          simp only [List.cons_append] at hrest
          injection hrest with h1 h2
          injection h1 with h3 h4
          show (if s.currentLine = [] then
              { s with lineStartTime := cum, currentLine := s.currentLine ++ [c] }
            else { s with currentLine := s.currentLine ++ [c] }).lineStartTime = t0
          rw [if_neg hne, ← h3]
          exact hstart t1 c1 tl hline

theorem dedupeChars_refines (cum : Rat) :
    ∀ (cs : List Char) (s : DeduplicateProgressLines)
      (line : List (Rat × Char)) (out : List Event), DedupeRel s line →
      DedupeRel (cs.foldl (dedupeChar cum) (s, out)).1
        (cs.foldl (specCharStep cum) (line, out)).1 ∧
      (cs.foldl (dedupeChar cum) (s, out)).2 = (cs.foldl (specCharStep cum) (line, out)).2
  | [], s, line, out, h => ⟨h, rfl⟩
  | c :: cs, s, line, out, h => by
    obtain ⟨hrel, hout⟩ := dedupeChar_refines cum c s line out h
    rw [List.foldl_cons, List.foldl_cons]
    have hX : dedupeChar cum (s, out) c =
        ((dedupeChar cum (s, out) c).1, (specCharStep cum (line, out) c).2) :=
      Prod.ext rfl hout
    rw [hX]
    exact dedupeChars_refines cum cs (dedupeChar cum (s, out) c).1
      (specCharStep cum (line, out) c).1 (specCharStep cum (line, out) c).2 hrel

theorem dedupeEvent_out (cum : Rat) (ev : Event) (s : DeduplicateProgressLines)
    (out : List Event) (h : ev.isOutput = true) :
    dedupeEvent (cum, s, out) ev =
      (cum + ev.time,
       (ev.data.foldl (dedupeChar (cum + ev.time)) (s, out)).1,
       (ev.data.foldl (dedupeChar (cum + ev.time)) (s, out)).2) := by
  simp only [dedupeEvent]
  rw [if_pos h]

theorem dedupeEvent_nonOut (cum : Rat) (ev : Event) (s : DeduplicateProgressLines)
    (out : List Event) (h : ¬(ev.isOutput = true)) :
    dedupeEvent (cum, s, out) ev =
      (cum + ev.time, { s with currentLine := [] },
       (if s.currentLine ≠ [] then
          out ++ [Event.output s.lineStartTime s.currentLine]
        else out) ++ [ev]) := by
  simp only [dedupeEvent]
  rw [if_neg h]

theorem specEventStep_out (cum : Rat) (ev : Event) (line : List (Rat × Char))
    (out : List Event) (h : ev.isOutput = true) :
    specEventStep (cum, line, out) ev =
      (cum + ev.time,
       (ev.data.foldl (specCharStep (cum + ev.time)) (line, out)).1,
       (ev.data.foldl (specCharStep (cum + ev.time)) (line, out)).2) := by
  simp only [specEventStep]
  rw [if_pos h]

theorem specEventStep_nonOut (cum : Rat) (ev : Event) (line : List (Rat × Char))
    (out : List Event) (h : ¬(ev.isOutput = true)) :
    specEventStep (cum, line, out) ev =
      (cum + ev.time, [],
       (match line with
        | [] => out
        | (t0, _) :: _ => out ++ [Event.output t0 (line.map Prod.snd)]) ++ [ev]) := by
  simp only [specEventStep]
  rw [if_neg h]

theorem dedupeEvent_refines (cum : Rat) (ev : Event) (s : DeduplicateProgressLines)
    (line : List (Rat × Char)) (out : List Event) (h : DedupeRel s line) :
    (dedupeEvent (cum, s, out) ev).1 = (specEventStep (cum, line, out) ev).1 ∧
    DedupeRel (dedupeEvent (cum, s, out) ev).2.1 (specEventStep (cum, line, out) ev).2.1 ∧
    (dedupeEvent (cum, s, out) ev).2.2 = (specEventStep (cum, line, out) ev).2.2 := by
  obtain ⟨hchars, hstart⟩ := h
  by_cases ho : ev.isOutput = true
  · rw [dedupeEvent_out cum ev s out ho, specEventStep_out cum ev line out ho]
    obtain ⟨hrel, hout⟩ :=
      dedupeChars_refines (cum + ev.time) ev.data s line out ⟨hchars, hstart⟩
    exact ⟨rfl, hrel, hout⟩
  · rw [dedupeEvent_nonOut cum ev s out ho, specEventStep_nonOut cum ev line out ho]
    refine ⟨rfl, ⟨rfl, fun t0 c0 rest hh => by simp at hh⟩, ?_⟩
    cases hline : line with
    | nil =>
      have hempty : s.currentLine = [] := by rw [hline] at hchars; simpa using hchars
      rw [if_neg (by simp [hempty])]
    | cons hd tl =>
      obtain ⟨t0, c0⟩ := hd
      rw [hline] at hchars
      have hne : s.currentLine ≠ [] := by rw [hchars]; simp
      have hst : s.lineStartTime = t0 := hstart t0 c0 tl hline
      rw [if_pos hne, hchars, hst]

theorem dedupeEvents_refines :
    ∀ (events : List Event) (cum : Rat) (s : DeduplicateProgressLines)
      (line : List (Rat × Char)) (out : List Event), DedupeRel s line →
      (events.foldl dedupeEvent (cum, s, out)).1 =
        (events.foldl specEventStep (cum, line, out)).1 ∧
      DedupeRel (events.foldl dedupeEvent (cum, s, out)).2.1
        (events.foldl specEventStep (cum, line, out)).2.1 ∧
      (events.foldl dedupeEvent (cum, s, out)).2.2 =
        (events.foldl specEventStep (cum, line, out)).2.2
  | [], cum, s, line, out, h => ⟨rfl, h, rfl⟩
  | ev :: evs, cum, s, line, out, h => by
    obtain ⟨hcum, hrel, hout⟩ := dedupeEvent_refines cum ev s line out h
    rw [List.foldl_cons, List.foldl_cons]
    have hX : dedupeEvent (cum, s, out) ev =
        ((specEventStep (cum, line, out) ev).1,
         (dedupeEvent (cum, s, out) ev).2.1,
         (specEventStep (cum, line, out) ev).2.2) := by
      refine Prod.ext hcum (Prod.ext rfl hout)
    rw [hX]
    exact dedupeEvents_refines evs (specEventStep (cum, line, out) ev).1
      (dedupeEvent (cum, s, out) ev).2.1
      (specEventStep (cum, line, out) ev).2.1
      (specEventStep (cum, line, out) ev).2.2 hrel

/-- Sum of a list of rationals. -/
def ratSum (l : List Rat) : Rat := l.foldr (· + ·) 0

/-- C10: for every input event list, the output of
`DeduplicateProgressLines` (from a fresh transform) equals the spec
reference in which each emitted Output event carries the cumulative
input time (prefix sum of deltas) at which the first character of its
payload arrived — the time field is an absolute time, not a delta
relative to the previously emitted event.  Consequently, on the input
[(1.0, "a\n"), (1.0, "b\n")] the emitted Output times are the absolute
times 1 and 2, whose sum 3 exceeds the input's total duration 2. -/
theorem dedupe_times_are_absolute_first_char_times (events : List Event) :
    (DeduplicateProgressLines.new.transform events).2 = dedupeSpec events ∧
    ratSum (((DeduplicateProgressLines.new.transform
        [Event.output 1 "a\n".toList, Event.output 1 "b\n".toList]).2).map Event.time) >
      ratSum ([Event.output (1 : Rat) "a\n".toList,
               Event.output (1 : Rat) "b\n".toList].map Event.time) := by
  constructor
  · obtain ⟨hcum, hrel, hout⟩ := dedupeEvents_refines events 0
      DeduplicateProgressLines.new [] [] ⟨rfl, fun t0 c0 rest h => by simp at h⟩
    unfold DeduplicateProgressLines.transform dedupeSpec
    have hpair : events.foldl dedupeEvent (0, DeduplicateProgressLines.new, []) =
        ((events.foldl dedupeEvent (0, DeduplicateProgressLines.new, [])).1,
         (events.foldl dedupeEvent (0, DeduplicateProgressLines.new, [])).2.1,
         (events.foldl dedupeEvent (0, DeduplicateProgressLines.new, [])).2.2) := rfl
    have hpair2 : events.foldl specEventStep (0, [], []) =
        ((events.foldl specEventStep (0, [], [])).1,
         (events.foldl specEventStep (0, [], [])).2.1,
         (events.foldl specEventStep (0, [], [])).2.2) := rfl
    rw [hpair, hpair2, hout]
    obtain ⟨hchars, hstart⟩ := hrel
    cases hline : (events.foldl specEventStep (0, [], [])).2.1 with
    | nil =>
      rw [hline] at hchars
      simp only [List.map_nil] at hchars
      simp only [hchars, ne_eq, not_true_eq_false, if_false]
    | cons hd tl =>
      obtain ⟨t0, c0⟩ := hd
      rw [hline] at hchars
      have hne : (events.foldl dedupeEvent
          (0, DeduplicateProgressLines.new, [])).2.1.currentLine ≠ [] := by
        rw [hchars]; simp
      have hst := hstart t0 c0 tl hline
      simp only [hne, ne_eq, not_false_eq_true, if_true]
      rw [hchars, hst]
  · have h1 : ((DeduplicateProgressLines.new.transform
        [Event.output 1 "a\n".toList, Event.output 1 "b\n".toList]).2).map Event.time =
        [0 + 1, 0 + 1 + 1] := rfl
    have h2 : ([Event.output (1 : Rat) "a\n".toList,
        Event.output (1 : Rat) "b\n".toList].map Event.time) = [1, 1] := rfl
    rw [h1, h2]
    unfold ratSum
    norm_num

/-! ## TerminalTransform (src/analyzer/transforms/terminal.rs) -/

/-- Parse a nonempty all-digit string as a number. -/
def parseNatDigits? (l : List Char) : Option Nat :=
  if l ≠ [] ∧ l.all (·.isDigit) then
    some (l.foldl (fun acc c => acc * 10 + (c.toNat - '0'.toNat)) 0)
  else none

/-- Modelled from the spec: `Event::parse_resize` is called from
terminal.rs and keyboard.rs but its definition is absent from the
source snapshot.  The spec says a Resize payload is a `"COLSxROWS"`
string with `u16` columns and rows, so parsing accepts exactly
`digits ++ "x" ++ digits` with both numbers below 2^16 and fails on
anything else. -/
def Event.parseResize (e : Event) : Option (Nat × Nat) :=
  let cols := e.data.takeWhile (· ≠ 'x')
  let rest := e.data.dropWhile (· ≠ 'x')
  match rest with
  | 'x' :: rows =>
    match parseNatDigits? cols, parseNatDigits? rows with
    | some c, some r => if c < 65536 ∧ r < 65536 then some (c, r) else none
    | _, _ => none
  | _ => none

/-- Drop trailing characters satisfying `p`. -/
def dropTrailing (p : Char → Bool) (l : List Char) : List Char :=
  (l.reverse.dropWhile p).reverse

/-- Rust `str::trim_end` (Unicode whitespace). -/
def rustTrimEnd (l : List Char) : List Char := dropTrailing rustWhitespace l

/-- Substring test: does `hay` contain `needle` (Rust `str::contains`)? -/
def listHas : List Char → List Char → Bool
  | [], needle => needle.isEmpty
  | c :: rest, needle => needle.isPrefixOf (c :: rest) || listHas rest needle

/-- `MAX_STORY_HASHES` from src/analyzer/transforms/terminal.rs. -/
def MAX_STORY_HASHES : Nat := 50000

/-- `TerminalTransform::is_noise`: spinner phrases and status bars. -/
def isNoise (line : List Char) : Bool :=
  let trimmed := rustTrim line
  if trimmed.isEmpty then false
  else
    listHas trimmed "Shimmying…".toList ||
    listHas trimmed "Orbiting…".toList ||
    listHas trimmed "Improvising…".toList ||
    listHas trimmed "Whatchamacalliting…".toList ||
    listHas trimmed "Churning…".toList ||
    listHas trimmed "Clauding…".toList ||
    listHas trimmed "Razzle-dazzling…".toList ||
    listHas trimmed "Wibbling…".toList ||
    listHas trimmed "Bloviating…".toList ||
    listHas trimmed "Herding…".toList ||
    listHas trimmed "Channeling…".toList ||
    listHas trimmed "Unfurling…".toList ||
    listHas trimmed "accept edits on (shift+Tab to cycle)".toList ||
    listHas trimmed "Context left until auto-compact".toList ||
    listHas trimmed "thinking".toList ||
    listHas trimmed "Tip:".toList ||
    listHas trimmed "Update available!".toList ||
    (listHas trimmed "Done".toList && listHas trimmed "tool uses".toList)

/-- Modelled from the spec: `TerminalTransform::hash_line` hashes the
line with trailing whitespace trimmed through `DefaultHasher` (a std
library hasher absent from the source).  The 64-bit hash is modelled
collision-freely by the trimmed line itself: equal trimmed lines have
equal hashes, which is the property the dedup invariants rely on. -/
def hashLine (line : List Char) : List Char := rustTrimEnd line

/-- Interface of the virtual terminal consumed by `TerminalTransform`
(the vendored `TerminalBuffer` implementation is absent from the source
snapshot; the transform is verified for every implementation of this
interface and instantiated with the spec-modelled terminal below).
`process` returns the buffer after feeding the payload plus the rows
scrolled off the top (the scroll callback), `termToString` is
`to_string()`, and `resize` reconfigures the grid. -/
structure TerminalBufferOps (β : Type) where
  process : β → List Char → β × List (List Char)
  termToString : β → List Char
  cursorRow : β → Nat
  cursorCol : β → Nat
  resize : β → Nat → Nat → β

/-- The `TerminalTransform` state from
src/analyzer/transforms/terminal.rs, generic over the terminal buffer
implementation: the buffer, the stable-line watermark, the last cursor
position, and the story hash set with its FIFO insertion order. -/
structure TerminalTransform (β : Type) where
  buffer : β
  stableLinesCount : Nat
  lastCursorPos : Nat × Nat
  storyHashes : List (List Char)
  storyHashOrder : List (List Char)

/-- `TerminalTransform::new` (given the freshly created buffer). -/
def TerminalTransform.new (buffer : β) : TerminalTransform β :=
  ⟨buffer, 0, (0, 0), [], []⟩

/-- The `while self.story_hashes.len() > MAX_STORY_HASHES` eviction
loop of `insert_hash`: pop the oldest order entry and remove it from
the set while over capacity.  (When the order queue is empty but the
set is over capacity the Rust loop would spin forever; that state is
unreachable under the well-formedness invariant and the model returns.) -/
def evictLoop : List (List Char) → List (List Char) → List (List Char) × List (List Char)
  | hashes, [] => (hashes, [])
  | hashes, old :: rest =>
    if hashes.length > MAX_STORY_HASHES then evictLoop (hashes.erase old) rest
    else (hashes, old :: rest)

/-- `TerminalTransform::insert_hash`: insert with bounded FIFO
eviction; returns `false` when the hash was already present. -/
def TerminalTransform.insertHash (self : TerminalTransform β) (h : List Char) :
    TerminalTransform β × Bool :=
  if h ∈ self.storyHashes then (self, false)
  else
    let hashes := h :: self.storyHashes
    let order := self.storyHashOrder ++ [h]
    let (hashes, order) := evictLoop hashes order
    ({ self with storyHashes := hashes, storyHashOrder := order }, true)

/-- `TerminalTransform::filter_new_lines`: drop noise lines, then keep
each line whose hash was newly inserted. -/
def TerminalTransform.filterNewLines (self : TerminalTransform β)
    (lines : List (List Char)) : TerminalTransform β × List (List Char) :=
  lines.foldl
    (fun acc line =>
      let (self, result) := acc
      if isNoise line then (self, result)
      else
        let (self, inserted) := self.insertHash (hashLine line)
        if inserted then (self, result ++ [line]) else (self, result))
    (self, [])

/-- Rust `str::lines`: split on `'\n'`, dropping a final empty segment. -/
def splitOnChar (c : Char) : List Char → List (List Char)
  | [] => [[]]
  | x :: xs =>
    if x = c then [] :: splitOnChar c xs
    else
      match splitOnChar c xs with
      | s :: rest => (x :: s) :: rest
      | [] => [[x]]

/-- Rust `str::lines` on a character list. -/
def rustLines (s : List Char) : List (List Char) :=
  let segs := splitOnChar '\n' s
  if segs.getLast? = some [] then segs.dropLast else segs

/-- The `while self.stable_lines_count < current_cursor.0 && ... <
current_lines.len()` loop of the transform: collect the rows strictly
above the cursor that have not been emitted yet, returning them with
the advanced watermark. -/
def emitStableFuel : Nat → List (List Char) → Nat → Nat →
    List (List Char) × Nat
  | 0, _, stable, _ => ([], stable)
  | fuel + 1, lines, stable, cursorRow =>
    if stable < cursorRow ∧ stable < lines.length then
      let next := emitStableFuel fuel lines (stable + 1) cursorRow
      (lines.getD stable [] :: next.1, next.2)
    else ([], stable)

def emitStable (lines : List (List Char)) (stable cursorRow : Nat) :
    List (List Char) × Nat :=
  emitStableFuel (cursorRow - stable) lines stable cursorRow

/-- Shared emission pattern of the Output arm: if there are candidate
lines, filter them through the dedup set and, if any survive, emit one
Output event carrying the accumulated time (which then resets to 0). -/
def ttEmitPart (self : TerminalTransform β) (accumulatedTime : Rat)
    (lines : List (List Char)) : TerminalTransform β × Rat × List Event :=
  if lines ≠ [] then
    if (self.filterNewLines lines).2 ≠ [] then
      ((self.filterNewLines lines).1, 0,
       [Event.output accumulatedTime
         (List.intercalate ['\n'] (self.filterNewLines lines).2)])
    else ((self.filterNewLines lines).1, accumulatedTime, [])
  else (self, accumulatedTime, [])

/-- The stability part of the Output arm: snapshot the grid, collect
the rows the cursor moved past plus the current row when it is
finalized, advance the watermark, and emit through the dedup set. -/
def ttStablePart (ops : TerminalBufferOps β) (self : TerminalTransform β)
    (accumulatedTime : Rat) (currentCursor : Nat × Nat)
    (hasNewline longPause : Bool) : TerminalTransform β × Rat × List Event :=
  let currentLines := rustLines (ops.termToString self.buffer)
  let pair1 := emitStable currentLines self.stableLinesCount currentCursor.1
  let isStable : Bool :=
    hasNewline || decide (currentCursor.1 < self.lastCursorPos.1) || longPause
  let pair2 :=
    if isStable = true ∧ currentCursor.1 < currentLines.length ∧
        pair1.2 ≤ currentCursor.1 then
      (pair1.1 ++ [currentLines.getD currentCursor.1 []],
       if hasNewline then currentCursor.1 + 1 else pair1.2)
    else pair1
  ttEmitPart { self with stableLinesCount := pair2.2 } accumulatedTime pair2.1

/-- The `EventType::Output` arm of `TerminalTransform::transform`,
returning the new state, the new accumulated time, and the events it
appends to the output. -/
def ttOutputStep (ops : TerminalBufferOps β) (self : TerminalTransform β)
    (accumulatedTime : Rat) (ev : Event) :
    TerminalTransform β × Rat × List Event :=
  let processed := ops.process self.buffer ev.data
  let scrolledLines := processed.2
  let self1 : TerminalTransform β := { self with buffer := processed.1 }
  let accumulatedTime := accumulatedTime + ev.time
  let hadScroll : Bool := decide (scrolledLines ≠ [])
  let step1 := ttEmitPart self1 accumulatedTime scrolledLines
  let self2 := step1.1
  let currentCursor := (ops.cursorRow self2.buffer, ops.cursorCol self2.buffer)
  let cursorMoved : Bool := decide (currentCursor ≠ self2.lastCursorPos)
  let hasNewline : Bool := decide ('\n' ∈ ev.data)
  let longPause : Bool := decide (ev.time > 2)
  let step2 :=
    if cursorMoved || hadScroll || hasNewline || longPause then
      ttStablePart ops self2 step1.2.1 currentCursor hasNewline longPause
    else (self2, step1.2.1, [])
  ({ step2.1 with lastCursorPos := currentCursor }, step2.2.1,
   step1.2.2 ++ step2.2.2)

/-- One event step of `TerminalTransform::transform`. -/
def ttStep (ops : TerminalBufferOps β)
    (acc : TerminalTransform β × Rat × List Event) (ev : Event) :
    TerminalTransform β × Rat × List Event :=
  let (self, accumulatedTime, out) := acc
  match ev.eventType with
  | EventType.Output =>
    let (self, accumulatedTime, emits) := ttOutputStep ops self accumulatedTime ev
    (self, accumulatedTime, out ++ emits)
  | EventType.Resize =>
    match ev.parseResize with
    | some (w, h) =>
      ({ self with buffer := ops.resize self.buffer w h }, 0,
       out ++ [{ ev with time := ev.time + accumulatedTime }])
    | none => (self, accumulatedTime, out)
  | _ => (self, 0, out ++ [{ ev with time := ev.time + accumulatedTime }])

/-- `TerminalTransform::transform`: fold the event steps, then the
final flush of the remaining stable lines. -/
def TerminalTransform.transform (ops : TerminalBufferOps β)
    (self : TerminalTransform β) (events : List Event) :
    TerminalTransform β × List Event :=
  let (self, accumulatedTime, out) := events.foldl (ttStep ops) (self, 0, [])
  let currentLines := (rustLines (ops.termToString self.buffer)).map rustTrimEnd
  let finalLines := currentLines.drop self.stableLinesCount
  let self :=
    { self with stableLinesCount := max self.stableLinesCount currentLines.length }
  let (self, filtered) := self.filterNewLines finalLines
  if filtered ≠ [] then
    (self, out ++ [Event.output accumulatedTime (List.intercalate ['\n'] filtered)])
  else (self, out)

/-! ### Non-output event preservation (C2) -/

/-- Non-output events that the story extractor keeps: all of them
except Resize events whose payload does not parse as `"COLSxROWS"`. -/
def keptNonOutput (e : Event) : Bool :=
  !e.isOutput &&
    (match e.eventType with
     | EventType.Resize => e.parseResize.isSome
     | _ => true)

theorem filter_nonout_append_output (out extra : List Event)
    (h : ∀ e ∈ extra, e.isOutput = true) :
    (out ++ extra).filter (fun e => !e.isOutput) =
      out.filter (fun e => !e.isOutput) := by
  rw [List.filter_append]
  have : extra.filter (fun e => !e.isOutput) = [] := by
    rw [List.filter_eq_nil_iff]
    intro e he
    rw [h e he]
    simp
  rw [this, List.append_nil]

theorem dedupeChar_out_extends (cum : Rat) (s : DeduplicateProgressLines)
    (out : List Event) (c : Char) :
    ((dedupeChar cum (s, out) c).2).filter (fun e => !e.isOutput) =
      out.filter (fun e => !e.isOutput) := by
  by_cases hr : c = '\r'
  · subst hr; rw [dedupeChar_cr]
  · by_cases hn : c = '\n'
    · subst hn
      rw [dedupeChar_nl]
      show (if s.currentLine ≠ [] then
          out ++ [Event.output s.lineStartTime (s.currentLine ++ ['\n'])]
        else out ++ [Event.output cum ['\n']]).filter _ = _
      split <;>
        exact filter_nonout_append_output out _ (by intro e he; simp at he; subst he; rfl)
    · rw [dedupeChar_other cum s out c hr hn]

theorem dedupeChars_out_extends (cum : Rat) :
    ∀ (cs : List Char) (s : DeduplicateProgressLines) (out : List Event),
      ((cs.foldl (dedupeChar cum) (s, out)).2).filter (fun e => !e.isOutput) =
        out.filter (fun e => !e.isOutput)
  | [], s, out => rfl
  | c :: cs, s, out => by
    rw [List.foldl_cons]
    have hpair : dedupeChar cum (s, out) c =
        ((dedupeChar cum (s, out) c).1, (dedupeChar cum (s, out) c).2) := rfl
    rw [hpair]
    rw [dedupeChars_out_extends cum cs (dedupeChar cum (s, out) c).1
      (dedupeChar cum (s, out) c).2]
    exact dedupeChar_out_extends cum s out c

theorem dedupe_preserves_non_output :
    ∀ (events : List Event) (cum : Rat) (s : DeduplicateProgressLines)
      (out : List Event),
      ((events.foldl dedupeEvent (cum, s, out)).2.2).filter (fun e => !e.isOutput) =
        out.filter (fun e => !e.isOutput) ++ events.filter (fun e => !e.isOutput)
  | [], cum, s, out => by simp
  | ev :: evs, cum, s, out => by
    rw [List.foldl_cons]
    by_cases ho : ev.isOutput = true
    · rw [dedupeEvent_out cum ev s out ho]
      rw [dedupe_preserves_non_output evs _ _ _]
      rw [dedupeChars_out_extends]
      have : (ev :: evs).filter (fun e => !e.isOutput) =
          evs.filter (fun e => !e.isOutput) := by
        rw [List.filter_cons_of_neg (by simp [ho])]
      rw [this]
    · rw [dedupeEvent_nonOut cum ev s out ho]
      rw [dedupe_preserves_non_output evs _ _ _]
      have hkeep : (ev :: evs).filter (fun e => !e.isOutput) =
          ev :: evs.filter (fun e => !e.isOutput) := by
        rw [List.filter_cons_of_pos (by simp [ho])]
      rw [hkeep]
      have hflush : ((if s.currentLine ≠ [] then
          out ++ [Event.output s.lineStartTime s.currentLine]
        else out) ++ [ev]).filter (fun e => !e.isOutput) =
          out.filter (fun e => !e.isOutput) ++ [ev] := by
        rw [List.filter_append]
        have h1 : (if s.currentLine ≠ [] then
            out ++ [Event.output s.lineStartTime s.currentLine]
          else out).filter (fun e => !e.isOutput) =
            out.filter (fun e => !e.isOutput) := by
          split
          · exact filter_nonout_append_output out _
              (by intro e he; simp at he; subst he; rfl)
          · rfl
        rw [h1, List.filter_cons_of_pos (by simp [ho]), List.filter_nil]
      rw [hflush, List.append_assoc]
      simp

theorem ttEmitPart_all_output (self : TerminalTransform β)
    (accumulatedTime : Rat) (lines : List (List Char)) :
    ∀ e ∈ (ttEmitPart self accumulatedTime lines).2.2, e.isOutput = true := by
  intro e he
  unfold ttEmitPart at he
  split at he
  · split at he
    · simp at he
      subst he; rfl
    · simp at he
  · simp at he

theorem ttStablePart_all_output (ops : TerminalBufferOps β)
    (self : TerminalTransform β) (accumulatedTime : Rat)
    (currentCursor : Nat × Nat) (hasNewline longPause : Bool) :
    ∀ e ∈ (ttStablePart ops self accumulatedTime currentCursor
      hasNewline longPause).2.2, e.isOutput = true := by
  intro e he
  simp only [ttStablePart] at he
  exact ttEmitPart_all_output _ _ _ e he

/-- All events appended by the Output arm of the story extractor are
Output events. -/
theorem ttOutputStep_all_output (ops : TerminalBufferOps β)
    (self : TerminalTransform β) (accumulatedTime : Rat) (ev : Event) :
    ∀ e ∈ (ttOutputStep ops self accumulatedTime ev).2.2, e.isOutput = true := by
  intro e he
  unfold ttOutputStep at he
  simp only [List.mem_append] at he
  rcases he with he | he
  · exact ttEmitPart_all_output _ _ _ e he
  · split at he
    · exact ttStablePart_all_output _ _ _ _ _ _ e he
    · simp at he

theorem ttStep_nonout_map (ops : TerminalBufferOps β)
    (self : TerminalTransform β) (accumulatedTime : Rat) (out : List Event)
    (ev : Event) :
    ((((ttStep ops (self, accumulatedTime, out) ev).2.2).filter
      (fun e => !e.isOutput)).map (fun e => (e.eventType, e.data))) =
      ((out.filter (fun e => !e.isOutput)).map (fun e => (e.eventType, e.data))) ++
      (if keptNonOutput ev then [(ev.eventType, ev.data)] else []) := by
  unfold ttStep keptNonOutput
  cases hty : ev.eventType with
  | Output =>
    have ho : ev.isOutput = true := by simp [Event.isOutput, hty]
    simp only []
    rw [filter_nonout_append_output out _ (ttOutputStep_all_output ops self accumulatedTime ev)]
    rw [if_neg (by simp [ho])]
    simp
  | Resize =>
    have ho : ev.isOutput = false := by simp [Event.isOutput, hty]
    cases hp : ev.parseResize with
    | some wh =>
      obtain ⟨w, h⟩ := wh
      simp only []
      rw [List.filter_append, List.filter_cons_of_pos (by simp [Event.isOutput, hty]),
        List.filter_nil, List.map_append]
      rw [if_pos (by simp [ho, hty, hp])]
      simp [hty]
    | none =>
      simp only []
      rw [if_neg (by simp [ho, hty, hp])]
      simp
  | Marker =>
    have ho : ev.isOutput = false := by simp [Event.isOutput, hty]
    simp only []
    rw [List.filter_append, List.filter_cons_of_pos (by simp [Event.isOutput, hty]),
      List.filter_nil, List.map_append]
    rw [if_pos (by simp [ho, hty])]
    simp [hty]
  | Input =>
    have ho : ev.isOutput = false := by simp [Event.isOutput, hty]
    simp only []
    rw [List.filter_append, List.filter_cons_of_pos (by simp [Event.isOutput, hty]),
      List.filter_nil, List.map_append]
    rw [if_pos (by simp [ho, hty])]
    simp [hty]
  | Exit =>
    have ho : ev.isOutput = false := by simp [Event.isOutput, hty]
    simp only []
    rw [List.filter_append, List.filter_cons_of_pos (by simp [Event.isOutput, hty]),
      List.filter_nil, List.map_append]
    rw [if_pos (by simp [ho, hty])]
    simp [hty]

theorem ttFold_nonout_map (ops : TerminalBufferOps β) :
    ∀ (events : List Event) (self : TerminalTransform β)
      (accumulatedTime : Rat) (out : List Event),
      ((((events.foldl (ttStep ops) (self, accumulatedTime, out)).2.2).filter
        (fun e => !e.isOutput)).map (fun e => (e.eventType, e.data))) =
        ((out.filter (fun e => !e.isOutput)).map (fun e => (e.eventType, e.data))) ++
        ((events.filter keptNonOutput).map (fun e => (e.eventType, e.data)))
  | [], self, accumulatedTime, out => by simp
  | ev :: evs, self, accumulatedTime, out => by
    rw [List.foldl_cons]
    have hpair : ttStep ops (self, accumulatedTime, out) ev =
        ((ttStep ops (self, accumulatedTime, out) ev).1,
         (ttStep ops (self, accumulatedTime, out) ev).2.1,
         (ttStep ops (self, accumulatedTime, out) ev).2.2) := rfl
    rw [hpair]
    rw [ttFold_nonout_map ops evs _ _ _]
    rw [ttStep_nonout_map ops self accumulatedTime out ev]
    by_cases hk : keptNonOutput ev = true
    · rw [if_pos hk, List.filter_cons_of_pos hk]
      simp
    · rw [if_neg hk, List.filter_cons_of_neg (by simpa using hk)]
      simp

/-- C2 (amended): `DeduplicateProgressLines`, `NormalizeWhitespace` and
`FilterEmptyEvents` preserve the subsequence of non-output events
exactly (same events, same order, none added, none removed).
`TerminalTransform` preserves the kinds and payloads of non-output
events in order, except that Resize events whose payload does not
parse as `"COLSxROWS"` are dropped (and the times of the surviving
non-output events may be shifted by pending accumulated output time). -/
theorem non_output_events_preserved :
    (∀ (s : DeduplicateProgressLines) (events : List Event),
      ((s.transform events).2).filter (fun e => !e.isOutput) =
        events.filter (fun e => !e.isOutput)) ∧
    (∀ (n : NormalizeWhitespace) (events : List Event),
      (n.transform events).filter (fun e => !e.isOutput) =
        events.filter (fun e => !e.isOutput)) ∧
    (∀ events : List Event,
      (FilterEmptyEvents.transform events).filter (fun e => !e.isOutput) =
        events.filter (fun e => !e.isOutput)) ∧
    (∀ (β : Type) (ops : TerminalBufferOps β) (self : TerminalTransform β)
        (events : List Event),
      (((TerminalTransform.transform ops self events).2).filter
        (fun e => !e.isOutput)).map (fun e => (e.eventType, e.data)) =
        ((events.filter keptNonOutput).map (fun e => (e.eventType, e.data)))) := by
  refine ⟨?_, ?_, ?_, ?_⟩
  · intro s events
    unfold DeduplicateProgressLines.transform
    have hpair : events.foldl dedupeEvent (0, s, []) =
        ((events.foldl dedupeEvent (0, s, [])).1,
         (events.foldl dedupeEvent (0, s, [])).2.1,
         (events.foldl dedupeEvent (0, s, [])).2.2) := rfl
    rw [hpair]
    have hbase := dedupe_preserves_non_output events 0 s []
    simp only [List.filter_nil, List.nil_append] at hbase
    simp only []
    split
    · rw [filter_nonout_append_output _ _
        (by intro e he; simp at he; subst he; rfl)]
      exact hbase
    · exact hbase
  · intro n events
    unfold NormalizeWhitespace.transform
    induction events with
    | nil => rfl
    | cons ev evs ih =>
      rw [List.map_cons]
      by_cases ho : ev.isOutput = true
      · rw [if_pos ho]
        have ho2 : ({ ev with data := normGo n.maxConsecutiveNewlines false 0 ev.data }
            : Event).isOutput = true := ho
        rw [List.filter_cons_of_neg (by simp [ho2]),
          List.filter_cons_of_neg (by simp [ho])]
        exact ih
      · rw [if_neg ho]
        rw [List.filter_cons_of_pos (by simpa using ho),
          List.filter_cons_of_pos (by simpa using ho)]
        rw [ih]
  · intro events
    unfold FilterEmptyEvents.transform
    induction events with
    | nil => rfl
    | cons ev evs ih =>
      cases hkeep : (if ev.isOutput = true then !(rustTrim ev.data).isEmpty else true) with
      | true =>
        rw [List.filter_cons_of_pos (by simpa using hkeep),
          List.filter_cons, List.filter_cons, ih]
      | false =>
        have ho : ev.isOutput = true := by
          by_contra hc
          rw [if_neg hc] at hkeep
          simp at hkeep
        rw [List.filter_cons_of_neg (by simpa using hkeep),
          List.filter_cons_of_neg (by simp [ho])]
        exact ih
  · intro β ops self events
    unfold TerminalTransform.transform
    have hpair : events.foldl (ttStep ops) (self, 0, []) =
        ((events.foldl (ttStep ops) (self, 0, [])).1,
         (events.foldl (ttStep ops) (self, 0, [])).2.1,
         (events.foldl (ttStep ops) (self, 0, [])).2.2) := rfl
    rw [hpair]
    have hbase := ttFold_nonout_map ops events self 0 []
    simp only [List.filter_nil, List.map_nil, List.nil_append] at hbase
    simp only []
    split
    · rw [filter_nonout_append_output _ _
        (by intro e he; simp at he; subst he; rfl)]
      exact hbase
    · exact hbase

/-! ### Spec-modelled virtual terminal (spec §4.B)

The vendored `TerminalBuffer` implementation is absent from the source
snapshot (src/terminal holds placeholder files only), so the terminal
is modelled from the spec: a `rows × cols` grid of cells with cursor,
saved cursor, scroll region and a VT parser state machine (Ground →
Escape → CSI → OSC), emitting rows scrolled off the top of the region.
Cell styles (SGR state) are omitted: no verified claim observes styles,
and the story extractor reads only the cell characters. -/

/-- VT parser states, modelled from the spec's parser state machine. -/
inductive ParserState where
  | ground
  | escape
  | csi (params : List Nat) (current : Option Nat) (ignoreSeq : Bool)
  | osc
  | oscEsc
deriving DecidableEq, Repr

/-- Modelled from the spec: the virtual terminal grid with cursor,
saved cursor, scroll region and parser state.  `cursorCol = width`
denotes pending wrap. -/
structure TerminalBuffer where
  width : Nat
  height : Nat
  grid : List (List Char)
  cursorRow : Nat
  cursorCol : Nat
  savedRow : Nat
  savedCol : Nat
  scrollTop : Nat
  scrollBot : Nat
  parser : ParserState
deriving DecidableEq, Repr

/-- A blank row of spaces. -/
def blankRow (w : Nat) : List Char := List.replicate w ' '

/-- `TerminalBuffer::new`: blank grid, cursor at origin, full-screen
scroll region. -/
def TerminalBuffer.new (width height : Nat) : TerminalBuffer :=
  ⟨width, height, List.replicate height (blankRow width), 0, 0, 0, 0, 0,
   height - 1, ParserState.ground⟩

/-- Write a character at a grid cell. -/
def setCell (grid : List (List Char)) (r c : Nat) (ch : Char) : List (List Char) :=
  grid.set r ((grid.getD r []).set c ch)

/-- Shift the scroll region up by one row (blank row enters at the
bottom). -/
def shiftUp (grid : List (List Char)) (top bot w : Nat) : List (List Char) :=
  (List.range grid.length).map fun r =>
    if top ≤ r ∧ r < bot then grid.getD (r + 1) []
    else if r = bot then blankRow w
    else grid.getD r []

/-- Shift the scroll region down by one row (blank row enters at the
top). -/
def shiftDown (grid : List (List Char)) (top bot w : Nat) : List (List Char) :=
  (List.range grid.length).map fun r =>
    if r = top then blankRow w
    else if top < r ∧ r ≤ bot then grid.getD (r - 1) []
    else grid.getD r []

/-- Line feed: scroll when at the bottom of the region (emitting the
row that falls out of the top), else move the cursor down. -/
def TerminalBuffer.lineFeed (b : TerminalBuffer) : TerminalBuffer × List (List Char) :=
  if b.cursorRow = b.scrollBot then
    ({ b with grid := shiftUp b.grid b.scrollTop b.scrollBot b.width },
     [b.grid.getD b.scrollTop []])
  else
    ({ b with cursorRow := min (b.cursorRow + 1) (b.height - 1) }, [])

/-- Print a character at the cursor, handling pending wrap. -/
def TerminalBuffer.putChar (b : TerminalBuffer) (c : Char) :
    TerminalBuffer × List (List Char) :=
  if b.width ≤ b.cursorCol then
    let b1 := { b with cursorCol := 0 }
    let fed := b1.lineFeed
    ({ fed.1 with grid := setCell fed.1.grid fed.1.cursorRow 0 c, cursorCol := 1 },
     fed.2)
  else
    ({ b with grid := setCell b.grid b.cursorRow b.cursorCol c,
              cursorCol := b.cursorCol + 1 }, [])

/-- CSI parameter list finalization: close the parameter being read. -/
def csiParams (params : List Nat) (current : Option Nat) : List Nat :=
  match current with
  | some n => params ++ [n]
  | none => if params = [] then [] else params ++ [0]

/-- Numeric parameter with a default for missing-or-zero. -/
def paramD (ps : List Nat) (i d : Nat) : Nat :=
  match ps.getD i 0 with
  | 0 => d
  | v => v

/-- Blank a half-open column range of a row. -/
def blankRange (row : List Char) (a b : Nat) : List Char :=
  (List.range row.length).map fun i =>
    if a ≤ i ∧ i < b then ' ' else row.getD i ' '

/-- CSI dispatch, modelled from the spec's CSI table (SGR `m` is a
no-op because styles are not modelled). -/
def TerminalBuffer.dispatchCsi (b : TerminalBuffer) (ps : List Nat)
    (cmd : Char) : TerminalBuffer :=
  let n1 := paramD ps 0 1
  match cmd with
  | 'A' => { b with cursorRow := b.cursorRow - n1 }
  | 'B' => { b with cursorRow := min (b.cursorRow + n1) (b.height - 1) }
  | 'C' => { b with cursorCol := min (b.cursorCol + n1) (b.width - 1) }
  | 'D' => { b with cursorCol := b.cursorCol - n1 }
  | 'H' => { b with cursorRow := min (paramD ps 0 1 - 1) (b.height - 1),
                    cursorCol := min (paramD ps 1 1 - 1) (b.width - 1) }
  | 'f' => { b with cursorRow := min (paramD ps 0 1 - 1) (b.height - 1),
                    cursorCol := min (paramD ps 1 1 - 1) (b.width - 1) }
  | 'G' => { b with cursorCol := min (n1 - 1) (b.width - 1) }
  | 'd' => { b with cursorRow := min (n1 - 1) (b.height - 1) }
  | 'J' =>
    let sel := ps.getD 0 0
    let grid :=
      if sel = 0 then
        (List.range b.grid.length).map fun r =>
          if r < b.cursorRow then b.grid.getD r []
          else if r = b.cursorRow then
            blankRange (b.grid.getD r []) b.cursorCol b.width
          else blankRow b.width
      else if sel = 1 then
        (List.range b.grid.length).map fun r =>
          if r < b.cursorRow then blankRow b.width
          else if r = b.cursorRow then
            blankRange (b.grid.getD r []) 0 (b.cursorCol + 1)
          else b.grid.getD r []
      else if sel = 2 then List.replicate b.height (blankRow b.width)
      else b.grid
    { b with grid := grid }
  | 'K' =>
    let sel := ps.getD 0 0
    let row := b.grid.getD b.cursorRow []
    let row :=
      if sel = 0 then blankRange row b.cursorCol b.width
      else if sel = 1 then blankRange row 0 (b.cursorCol + 1)
      else if sel = 2 then blankRow b.width
      else row
    { b with grid := b.grid.set b.cursorRow row }
  | 'L' =>
    { b with grid :=
        (List.range b.grid.length).map fun r =>
          if b.cursorRow ≤ r ∧ r ≤ b.scrollBot then
            if r < b.cursorRow + n1 then blankRow b.width
            else b.grid.getD (r - n1) []
          else b.grid.getD r [] }
  | 'M' =>
    { b with grid :=
        (List.range b.grid.length).map fun r =>
          if b.cursorRow ≤ r ∧ r ≤ b.scrollBot then
            if r + n1 ≤ b.scrollBot then b.grid.getD (r + n1) []
            else blankRow b.width
          else b.grid.getD r [] }
  | 'P' =>
    let row := b.grid.getD b.cursorRow []
    let row := (List.range row.length).map fun i =>
      if i < b.cursorCol then row.getD i ' '
      else row.getD (i + n1) ' '
    { b with grid := b.grid.set b.cursorRow row }
  | '@' =>
    let row := b.grid.getD b.cursorRow []
    let row := (List.range row.length).map fun i =>
      if i < b.cursorCol then row.getD i ' '
      else if i < b.cursorCol + n1 then ' '
      else row.getD (i - n1) ' '
    { b with grid := b.grid.set b.cursorRow row }
  | 'r' =>
    let top := paramD ps 0 1 - 1
    let bot := paramD ps 1 b.height - 1
    if top ≤ bot ∧ bot < b.height then
      { b with scrollTop := top, scrollBot := bot }
    else { b with scrollTop := 0, scrollBot := b.height - 1 }
  | 'S' =>
    { b with grid := (fun g => shiftUp g b.scrollTop b.scrollBot b.width)^[n1] b.grid }
  | 'T' =>
    { b with grid := (fun g => shiftDown g b.scrollTop b.scrollBot b.width)^[n1] b.grid }
  | 's' => { b with savedRow := b.cursorRow, savedCol := b.cursorCol }
  | 'u' => { b with cursorRow := b.savedRow, cursorCol := b.savedCol }
  | _ => b

/-- Process one input character through the parser state machine. -/
def TerminalBuffer.processChar (b : TerminalBuffer) (c : Char) :
    TerminalBuffer × List (List Char) :=
  match b.parser with
  | ParserState.ground =>
    if c = '\x1b' then ({ b with parser := ParserState.escape }, [])
    else if c = '\r' then ({ b with cursorCol := 0 }, [])
    else if c = '\n' then b.lineFeed
    else if c = '\x08' then ({ b with cursorCol := b.cursorCol - 1 }, [])
    else if c = '\t' then
      ({ b with cursorCol := min ((b.cursorCol / 8 + 1) * 8) (b.width - 1) }, [])
    else if c = '\x0e' ∨ c = '\x0f' then (b, [])
    else if c.toNat < 32 ∨ c.toNat = 127 then (b, [])
    else b.putChar c
  | ParserState.escape =>
    if c = '[' then ({ b with parser := ParserState.csi [] none false }, [])
    else if c = ']' then ({ b with parser := ParserState.osc }, [])
    else if c = '7' then
      ({ b with savedRow := b.cursorRow, savedCol := b.cursorCol,
                parser := ParserState.ground }, [])
    else if c = '8' then
      ({ b with cursorRow := b.savedRow, cursorCol := b.savedCol,
                parser := ParserState.ground }, [])
    else if c = 'M' then
      if b.cursorRow = b.scrollTop then
        ({ b with grid := shiftDown b.grid b.scrollTop b.scrollBot b.width,
                  parser := ParserState.ground }, [])
      else ({ b with cursorRow := b.cursorRow - 1, parser := ParserState.ground }, [])
    else ({ b with parser := ParserState.ground }, [])
  | ParserState.csi params current ignoreSeq =>
    if c.isDigit then
      ({ b with parser :=
          ParserState.csi params (some ((current.getD 0) * 10 + (c.toNat - 48))) ignoreSeq }, [])
    else if c = ';' then
      ({ b with parser := ParserState.csi (params ++ [current.getD 0]) none ignoreSeq }, [])
    else if 0x40 ≤ c.toNat ∧ c.toNat ≤ 0x7E then
      let b1 := if ignoreSeq then b else b.dispatchCsi (csiParams params current) c
      ({ b1 with parser := ParserState.ground }, [])
    else ({ b with parser := ParserState.csi params current true }, [])
  | ParserState.osc =>
    if c = '\x07' then ({ b with parser := ParserState.ground }, [])
    else if c = '\x1b' then ({ b with parser := ParserState.oscEsc }, [])
    else (b, [])
  | ParserState.oscEsc =>
    if c = '\\' then ({ b with parser := ParserState.ground }, [])
    else ({ b with parser := ParserState.osc }, [])

/-- `TerminalBuffer::process`: feed a payload, accumulating scrolled-off
rows in order (the scroll callback). -/
def TerminalBuffer.process (b : TerminalBuffer) (data : List Char) :
    TerminalBuffer × List (List Char) :=
  data.foldl
    (fun acc c =>
      let step := TerminalBuffer.processChar acc.1 c
      (step.1, acc.2 ++ step.2))
    (b, [])

/-- `TerminalBuffer::to_string`: rows joined by newlines with trailing
spaces stripped. -/
def TerminalBuffer.termToString (b : TerminalBuffer) : List Char :=
  List.intercalate ['\n'] (b.grid.map (dropTrailing (· = ' ')))

/-- `TerminalBuffer::resize`: reallocate preserving the overlap at the
origin, clamp the cursor, reset the scroll region. -/
def TerminalBuffer.resize (b : TerminalBuffer) (w h : Nat) : TerminalBuffer :=
  { b with
    width := w
    height := h
    grid := (List.range h).map fun r => (List.range w).map fun c =>
      (b.grid.getD r []).getD c ' '
    cursorRow := min b.cursorRow (h - 1)
    cursorCol := min b.cursorCol w
    scrollTop := 0
    scrollBot := h - 1 }

/-- The spec terminal packaged as the buffer interface consumed by the
story extractor. -/
def specTerminalOps : TerminalBufferOps TerminalBuffer where
  process := TerminalBuffer.process
  termToString := TerminalBuffer.termToString
  cursorRow := TerminalBuffer.cursorRow
  cursorCol := TerminalBuffer.cursorCol
  resize := TerminalBuffer.resize

/-- C2 counterexample: the claim fails on `TerminalTransform` at two
concrete inputs.  A Resize event whose payload is not `"COLSxROWS"` is
dropped entirely (the output contains no non-output event at all), and
a Marker event following a quiet Output event is re-timed: its time
field becomes 1 + (0 + 1) = 2 instead of the input's 1, so the
non-output subsequence of the output is not exactly the non-output
subsequence of the input. -/
theorem terminal_transform_changes_non_output_events :
    ((TerminalTransform.transform specTerminalOps
        (TerminalTransform.new (TerminalBuffer.new 2 2))
        [Event.mk (1/2) EventType.Resize "garbage".toList]).2.filter
          (fun e => !e.isOutput) = []) ∧
    ([Event.mk ((1 : Rat)/2) EventType.Resize "garbage".toList].filter
        (fun e => !e.isOutput)).length = 1 ∧
    (((TerminalTransform.transform specTerminalOps
        (TerminalTransform.new (TerminalBuffer.new 2 2))
        [Event.output 1 "a".toList, Event.marker 1 "x".toList]).2.filter
          (fun e => !e.isOutput)).map Event.time = [1 + (0 + 1)]) ∧
    ([Event.output (1 : Rat) "a".toList, Event.marker (1 : Rat) "x".toList].filter
        (fun e => !e.isOutput)).map Event.time = [1] ∧
    ¬ ((1 : Rat) + (0 + 1) = 1) := by
  refine ⟨by decide, by decide, rfl, rfl, by norm_num⟩

/-! ### C3: the bounded-FIFO story hash set -/

/-- Well-formedness of the story hash state: the set is a permutation
of the insertion-order queue, the queue is duplicate-free, and it
holds at most `MAX_STORY_HASHES` entries.  `TerminalTransform::new`
establishes it and every operation preserves it. -/
def TTWf (self : TerminalTransform β) : Prop :=
  self.storyHashes.Perm self.storyHashOrder ∧
  self.storyHashOrder.Nodup ∧
  self.storyHashOrder.length ≤ MAX_STORY_HASHES

/-- The per-line body of `filter_new_lines`, named so the fold can be
reasoned about; definitionally equal to the closure in
`TerminalTransform.filterNewLines`. -/
def ffStep (acc : TerminalTransform β × List (List Char)) (line : List Char) :
    TerminalTransform β × List (List Char) :=
  if isNoise line then acc
  else
    let ins := acc.1.insertHash (hashLine line)
    if ins.2 then (ins.1, acc.2 ++ [line]) else (ins.1, acc.2)

lemma filterNewLines_eq_ffoldl (self : TerminalTransform β)
    (lines : List (List Char)) :
    self.filterNewLines lines = lines.foldl ffStep (self, []) := rfl

/-- A run of the story-line dedup filter: successive candidate batches
fed through `filter_new_lines` on a threaded state, with the emitted
(story-output) lines collected in order. -/
def ttFilterRun (self : TerminalTransform β)
    (batches : List (List (List Char))) :
    TerminalTransform β × List (List Char) :=
  batches.foldl
    (fun acc batch =>
      ((acc.1.filterNewLines batch).1, acc.2 ++ (acc.1.filterNewLines batch).2))
    (self, [])

lemma evictLoop_of_le (hashes order : List (List Char))
    (hle : hashes.length ≤ MAX_STORY_HASHES) :
    evictLoop hashes order = (hashes, order) := by
  cases order with
  | nil => rfl
  | cons o rest =>
    show (if hashes.length > MAX_STORY_HASHES then
            evictLoop (hashes.erase o) rest
          else (hashes, o :: rest)) = _
    rw [if_neg (by omega)]

lemma evictLoop_evict_one (hashes : List (List Char)) (o : List Char)
    (rest : List (List Char)) (hlen : hashes.length = MAX_STORY_HASHES + 1)
    (hmem : o ∈ hashes) :
    evictLoop hashes (o :: rest) = (hashes.erase o, rest) := by
  show (if hashes.length > MAX_STORY_HASHES then
          evictLoop (hashes.erase o) rest
        else (hashes, o :: rest)) = _
  rw [if_pos (by omega)]
  apply evictLoop_of_le
  rw [List.length_erase_of_mem hmem]
  omega

lemma insertHash_of_mem (self : TerminalTransform β) (h : List Char)
    (hmem : h ∈ self.storyHashes) : self.insertHash h = (self, false) := by
  unfold TerminalTransform.insertHash
  rw [if_pos hmem]

lemma insertHash_snd_of_not_mem (self : TerminalTransform β) (h : List Char)
    (hmem : h ∉ self.storyHashes) : (self.insertHash h).2 = true := by
  unfold TerminalTransform.insertHash
  rw [if_neg hmem]

lemma insertHash_not_mem_small (self : TerminalTransform β) (h : List Char)
    (hwf : TTWf self) (hmem : h ∉ self.storyHashes)
    (hlt : self.storyHashOrder.length < MAX_STORY_HASHES) :
    self.insertHash h =
      ({ self with storyHashes := h :: self.storyHashes,
                   storyHashOrder := self.storyHashOrder ++ [h] }, true) := by
  obtain ⟨hperm, _, _⟩ := hwf
  unfold TerminalTransform.insertHash
  rw [if_neg hmem]
  have hlen : (h :: self.storyHashes).length ≤ MAX_STORY_HASHES := by
    simp only [List.length_cons, hperm.length_eq]
    omega
  simp only [evictLoop_of_le _ _ hlen]

lemma insertHash_not_mem_full (self : TerminalTransform β) (h : List Char)
    (hwf : TTWf self) (hmem : h ∉ self.storyHashes)
    (hfull : self.storyHashOrder.length = MAX_STORY_HASHES) :
    ∃ o0 orest, self.storyHashOrder = o0 :: orest ∧
      self.insertHash h =
        ({ self with storyHashes := h :: self.storyHashes.erase o0,
                     storyHashOrder := orest ++ [h] }, true) := by
  obtain ⟨hperm, _, _⟩ := hwf
  cases hord : self.storyHashOrder with
  | nil =>
    rw [hord] at hfull
    unfold MAX_STORY_HASHES at hfull
    simp at hfull
  | cons o0 orest =>
    refine ⟨o0, orest, rfl, ?_⟩
    have ho0hashes : o0 ∈ self.storyHashes := by
      rw [hperm.mem_iff, hord]
      exact List.mem_cons_self o0 orest
    have hne : h ≠ o0 := by
      intro hcontra
      exact hmem (hcontra ▸ ho0hashes)
    unfold TerminalTransform.insertHash
    rw [if_neg hmem, hord]
    have hsplit : (o0 :: orest) ++ [h] = o0 :: (orest ++ [h]) := rfl
    have herase : (h :: self.storyHashes).erase o0
        = h :: self.storyHashes.erase o0 := by
      rw [List.erase_cons]
      simp [hne]
    rw [hord] at hfull
    simp only [List.length_cons] at hfull
    have hev : evictLoop (h :: self.storyHashes) ((o0 :: orest) ++ [h])
        = (h :: self.storyHashes.erase o0, orest ++ [h]) := by
      rw [hsplit, evictLoop_evict_one (h :: self.storyHashes) o0 (orest ++ [h])
        (by simp only [List.length_cons, hperm.length_eq, hord]; omega)
        (List.mem_cons_of_mem h ho0hashes), herase]
    simp only [hev]

lemma erase_eq_eraseDec (a : List Char) (l : List (List Char)) :
    l.erase a = @List.erase _ instBEqOfDecidableEq l a := by
  induction l with
  | nil => rfl
  | cons b t ih =>
    by_cases hba : b = a
    · have e1 : (@BEq.beq _ List.instBEq b a) = true := by simp [hba]
      have e2 : (@BEq.beq _ instBEqOfDecidableEq b a) = true := decide_eq_true hba
      rw [@List.erase_cons (List Char) List.instBEq a b t,
        @List.erase_cons (List Char) instBEqOfDecidableEq a b t,
        if_pos e1, if_pos e2]
    · have e1 : (@BEq.beq _ List.instBEq b a) = false := by simp [hba]
      have e2 : (@BEq.beq _ instBEqOfDecidableEq b a) = false :=
        decide_eq_false hba
      rw [@List.erase_cons (List Char) List.instBEq a b t,
        @List.erase_cons (List Char) instBEqOfDecidableEq a b t,
        if_neg (by simp [e1]), if_neg (by simp [e2]), ih]

lemma TTWf_new (buffer : β) : TTWf (TerminalTransform.new buffer) :=
  ⟨List.Perm.refl [], List.nodup_nil, Nat.zero_le _⟩

lemma TTWf_insertHash (self : TerminalTransform β) (h : List Char)
    (hwf : TTWf self) : TTWf (self.insertHash h).1 := by
  by_cases hmem : h ∈ self.storyHashes
  · rw [insertHash_of_mem self h hmem]
    exact hwf
  · obtain ⟨hperm, hnd, hle⟩ := hwf
    have hnotord : h ∉ self.storyHashOrder := fun hc =>
      hmem (hperm.mem_iff.mpr hc)
    rcases Nat.lt_or_ge self.storyHashOrder.length MAX_STORY_HASHES with
      hlt | hge
    · rw [insertHash_not_mem_small self h ⟨hperm, hnd, hle⟩ hmem hlt]
      refine ⟨?_, ?_, ?_⟩
      · exact (hperm.cons h).trans (List.perm_append_singleton h _).symm
      · rw [List.nodup_append]
        exact ⟨hnd, List.nodup_singleton h,
          fun a ha hb => hnotord ((List.mem_singleton.mp hb) ▸ ha)⟩
      · simp only [List.length_append, List.length_singleton]
        omega
    · have hfull : self.storyHashOrder.length = MAX_STORY_HASHES := by omega
      obtain ⟨o0, orest, hord, hchar⟩ :=
        insertHash_not_mem_full self h ⟨hperm, hnd, hle⟩ hmem hfull
      rw [hchar]
      have hperm' : self.storyHashes.Perm (o0 :: orest) := hord ▸ hperm
      have hndc := hord ▸ hnd
      refine ⟨?_, ?_, ?_⟩
      · have ho0hashes : o0 ∈ self.storyHashes :=
          hperm.mem_iff.mpr (hord ▸ List.mem_cons_self o0 orest)
        have h1 : (o0 :: self.storyHashes.erase o0).Perm (o0 :: orest) := by
          rw [erase_eq_eraseDec]
          exact (List.perm_cons_erase ho0hashes).symm.trans hperm'
        have he : (self.storyHashes.erase o0).Perm orest := h1.cons_inv
        exact ((he.cons h).trans (List.perm_append_singleton h orest).symm :
          (h :: self.storyHashes.erase o0).Perm (orest ++ [h]))
      · rw [List.nodup_append]
        refine ⟨(List.nodup_cons.mp hndc).2, List.nodup_singleton h,
          fun a ha hb => ?_⟩
        rw [List.mem_singleton.mp hb] at ha
        exact hnotord (hord ▸ List.mem_cons_of_mem o0 ha)
      · have : orest.length + 1 = MAX_STORY_HASHES := by
          rw [hord] at hfull
          simpa using hfull
        simp only [List.length_append, List.length_singleton]
        omega

lemma insertHash_card_le (self : TerminalTransform β) (h : List Char)
    (hwf : TTWf self) :
    (self.insertHash h).1.storyHashes.length ≤ MAX_STORY_HASHES := by
  obtain ⟨hperm, _, hle⟩ := TTWf_insertHash self h hwf
  rw [hperm.length_eq]
  exact hle

lemma TTWf_ffoldl (lines : List (List Char)) :
    ∀ (self : TerminalTransform β) (res : List (List Char)), TTWf self →
    TTWf ((List.foldl ffStep (self, res) lines).1) := by
  induction lines with
  | nil => intro self res hwf; exact hwf
  | cons l ls ih =>
    intro self res hwf
    rw [List.foldl_cons]
    by_cases hn : isNoise l = true
    · rw [show ffStep (self, res) l = (self, res) from by simp [ffStep, hn]]
      exact ih self res hwf
    · have hwf' := TTWf_insertHash self (hashLine l) hwf
      cases hb : (self.insertHash (hashLine l)).2 with
      | true =>
        rw [show ffStep (self, res) l
            = ((self.insertHash (hashLine l)).1, res ++ [l]) from by
          simp [ffStep, hn, hb]]
        exact ih _ _ hwf'
      | false =>
        rw [show ffStep (self, res) l
            = ((self.insertHash (hashLine l)).1, res) from by
          simp [ffStep, hn, hb]]
        exact ih _ _ hwf'

lemma TTWf_filterNewLines (self : TerminalTransform β)
    (lines : List (List Char)) (hwf : TTWf self) :
    TTWf (self.filterNewLines lines).1 := by
  rw [filterNewLines_eq_ffoldl]
  exact TTWf_ffoldl lines self [] hwf

lemma TTWf_ttEmitPart (self : TerminalTransform β) (t : Rat)
    (lines : List (List Char)) (hwf : TTWf self) :
    TTWf (ttEmitPart self t lines).1 := by
  unfold ttEmitPart
  split_ifs
  · exact TTWf_filterNewLines self lines hwf
  · exact TTWf_filterNewLines self lines hwf
  · exact hwf

lemma TTWf_ttStablePart (ops : TerminalBufferOps β)
    (self : TerminalTransform β) (t : Rat) (cc : Nat × Nat)
    (hn lp : Bool) (hwf : TTWf self) :
    TTWf (ttStablePart ops self t cc hn lp).1 := by
  unfold ttStablePart
  exact TTWf_ttEmitPart _ _ _ hwf

lemma TTWf_ttOutputStep (ops : TerminalBufferOps β)
    (self : TerminalTransform β) (t : Rat) (ev : Event) (hwf : TTWf self) :
    TTWf (ttOutputStep ops self t ev).1 := by
  unfold ttOutputStep
  simp only []
  split
  · exact TTWf_ttStablePart _ _ _ _ _ _ (TTWf_ttEmitPart _ _ _ hwf)
  · exact TTWf_ttEmitPart _ _ _ hwf

lemma TTWf_ttStep (ops : TerminalBufferOps β)
    (acc : TerminalTransform β × Rat × List Event) (ev : Event)
    (hwf : TTWf acc.1) : TTWf (ttStep ops acc ev).1 := by
  unfold ttStep
  rcases hp : acc with ⟨self, t, out⟩
  rw [hp] at hwf
  cases ev.eventType with
  | Output => exact TTWf_ttOutputStep ops self t ev hwf
  | Resize =>
    cases ev.parseResize with
    | some wh => exact hwf
    | none => exact hwf
  | Input => exact hwf
  | Marker => exact hwf
  | Exit => exact hwf

lemma TTWf_ttFold (ops : TerminalBufferOps β) (events : List Event) :
    ∀ (acc : TerminalTransform β × Rat × List Event), TTWf acc.1 →
    TTWf ((List.foldl (ttStep ops) acc events).1) := by
  induction events with
  | nil => intro acc hwf; exact hwf
  | cons ev rest ih =>
    intro acc hwf
    rw [List.foldl_cons]
    exact ih _ (TTWf_ttStep ops acc ev hwf)

lemma TTWf_transform (ops : TerminalBufferOps β)
    (self : TerminalTransform β) (events : List Event) (hwf : TTWf self) :
    TTWf (TerminalTransform.transform ops self events).1 := by
  unfold TerminalTransform.transform
  simp only []
  have hfold := TTWf_ttFold ops events (self, 0, []) hwf
  split
  · exact TTWf_filterNewLines _ _ hfold
  · exact TTWf_filterNewLines _ _ hfold

/-- Separation property of a hash-insertion trace: any two equal
entries lie more than `MAX_STORY_HASHES` positions apart. -/
def SepTrace (H : List (List Char)) : Prop :=
  ∀ i j : Nat, ∀ hi hj : List Char, i < j → H[i]? = some hi →
    H[j]? = some hj → hi = hj → MAX_STORY_HASHES < j - i

/-- Invariant tying a hash-insertion trace to the dedup state: the
trace ends with the current FIFO queue (everything before it has been
evicted, which only happens once the queue is at capacity), the state
is well-formed, and the trace is separated. -/
def TraceInv (H : List (List Char)) (self : TerminalTransform β) : Prop :=
  (∃ P, H = P ++ self.storyHashOrder ∧
    (P = [] ∨ self.storyHashOrder.length = MAX_STORY_HASHES)) ∧
  TTWf self ∧ SepTrace H

lemma SepTrace_of_nodup (H : List (List Char)) (hnd : H.Nodup) :
    SepTrace H := by
  intro i j hi hj hij hgi hgj heq
  obtain ⟨hilt, _⟩ := List.getElem?_eq_some.mp hgi
  have hsame : H[i]? = H[j]? := by
    rw [hgi, hgj, heq]
  have : i = j := List.getElem?_inj hilt hnd hsame
  omega

lemma TraceInv_start (self : TerminalTransform β) (hwf : TTWf self) :
    TraceInv self.storyHashOrder self :=
  ⟨⟨[], (List.nil_append _).symm, Or.inl rfl⟩, hwf,
    SepTrace_of_nodup _ hwf.2.1⟩

lemma TraceInv_insertHash (self : TerminalTransform β) (h : List Char)
    (H : List (List Char)) (hinv : TraceInv H self)
    (hmem : h ∉ self.storyHashes) :
    TraceInv (H ++ [h]) (self.insertHash h).1 := by
  obtain ⟨⟨P, hH, hPor⟩, hwf, hsep⟩ := hinv
  obtain ⟨hperm, hnd, hle⟩ := hwf
  have hnotord : h ∉ self.storyHashOrder := fun hc =>
    hmem (hperm.mem_iff.mpr hc)
  have hnotH : h ∉ H → True := fun _ => trivial
  rcases Nat.lt_or_ge self.storyHashOrder.length MAX_STORY_HASHES with
    hlt | hge
  · have hP : P = [] := by
      rcases hPor with hP | hfull
      · exact hP
      · omega
    subst hP
    rw [List.nil_append] at hH
    subst hH
    rw [insertHash_not_mem_small self h ⟨hperm, hnd, hle⟩ hmem hlt]
    refine ⟨⟨[], (List.nil_append _).symm, Or.inl rfl⟩,
      ?_, ?_⟩
    · have := TTWf_insertHash self h ⟨hperm, hnd, hle⟩
      rw [insertHash_not_mem_small self h ⟨hperm, hnd, hle⟩ hmem hlt] at this
      exact this
    · intro i j hi hj hij hgi hgj heq
      by_cases hjlt : j < self.storyHashOrder.length
      · rw [List.getElem?_append_left (by omega)] at hgi
        rw [List.getElem?_append_left hjlt] at hgj
        exact hsep i j hi hj hij hgi hgj heq
      · have hjlen : j < self.storyHashOrder.length + 1 := by
          have := (List.getElem?_eq_some.mp hgj).1
          simpa using this
        have hjeq : j = self.storyHashOrder.length := by omega
        have hilt : i < self.storyHashOrder.length := by omega
        rw [List.getElem?_append_left hilt] at hgi
        have hhj : hj = h := by
          rw [hjeq, List.getElem?_append_right (by omega)] at hgj
          simp at hgj
          exact hgj.symm
        have : hi ∈ self.storyHashOrder := List.getElem?_mem hgi
        rw [heq, hhj] at this
        exact absurd this hnotord
  · have hfull : self.storyHashOrder.length = MAX_STORY_HASHES := by omega
    obtain ⟨o0, orest, hord, hchar⟩ :=
      insertHash_not_mem_full self h ⟨hperm, hnd, hle⟩ hmem hfull
    rw [hchar]
    have hordlen : orest.length + 1 = MAX_STORY_HASHES := by
      rw [hord] at hfull
      simpa using hfull
    refine ⟨⟨P ++ [o0], ?_, Or.inr ?_⟩, ?_, ?_⟩
    · rw [hH, hord]
      simp
    · simp only [List.length_append, List.length_singleton]
      omega
    · have := TTWf_insertHash self h ⟨hperm, hnd, hle⟩
      rw [hchar] at this
      exact this
    · intro i j hi hj hij hgi hgj heq
      have hHlen : H.length = P.length + MAX_STORY_HASHES := by
        rw [hH, List.length_append, hfull]
      by_cases hjlt : j < H.length
      · rw [List.getElem?_append_left (by omega)] at hgi
        rw [List.getElem?_append_left hjlt] at hgj
        exact hsep i j hi hj hij hgi hgj heq
      · have hjlen : j < H.length + 1 := by
          have := (List.getElem?_eq_some.mp hgj).1
          simpa using this
        have hjeq : j = H.length := by omega
        have hilt : i < H.length := by omega
        rw [List.getElem?_append_left hilt] at hgi
        have hhj : hj = h := by
          rw [hjeq, List.getElem?_append_right (by omega)] at hgj
          simp at hgj
          exact hgj.symm
        have hiP : i < P.length := by
          by_contra hiP
          push_neg at hiP
          rw [hH, List.getElem?_append_right hiP] at hgi
          have : hi ∈ self.storyHashOrder := List.getElem?_mem hgi
          rw [heq, hhj] at this
          exact absurd this hnotord
        omega

lemma TraceInv_ffoldl (lines : List (List Char)) :
    ∀ (self : TerminalTransform β) (res H : List (List Char)),
    TraceInv H self →
    ∃ extra, List.foldl ffStep (self, res) lines
        = ((List.foldl ffStep (self, res) lines).1, res ++ extra) ∧
      TraceInv (H ++ extra.map hashLine)
        ((List.foldl ffStep (self, res) lines).1) := by
  induction lines with
  | nil =>
    intro self res H hinv
    exact ⟨[], by simp, by simpa using hinv⟩
  | cons l ls ih =>
    intro self res H hinv
    rw [List.foldl_cons]
    by_cases hn : isNoise l = true
    · rw [show ffStep (self, res) l = (self, res) from by simp [ffStep, hn]]
      exact ih self res H hinv
    · by_cases hmem : hashLine l ∈ self.storyHashes
      · rw [show ffStep (self, res) l = (self, res) from by
          simp [ffStep, hn, insertHash_of_mem self (hashLine l) hmem]]
        exact ih self res H hinv
      · have hb := insertHash_snd_of_not_mem self (hashLine l) hmem
        rw [show ffStep (self, res) l
            = ((self.insertHash (hashLine l)).1, res ++ [l]) from by
          simp [ffStep, hn, hb]]
        have hinv' : TraceInv (H ++ [hashLine l])
            (self.insertHash (hashLine l)).1 :=
          TraceInv_insertHash self (hashLine l) H hinv hmem
        obtain ⟨extra, hfold, hinv''⟩ :=
          ih (self.insertHash (hashLine l)).1 (res ++ [l])
            (H ++ [hashLine l]) hinv'
        refine ⟨l :: extra, ?_, ?_⟩
        · rw [hfold]
          simp
        · rw [List.map_cons]
          rw [show H ++ hashLine l :: extra.map hashLine
              = (H ++ [hashLine l]) ++ extra.map hashLine from by simp]
          exact hinv''

lemma TraceInv_filterNewLines (self : TerminalTransform β)
    (lines H : List (List Char)) (hinv : TraceInv H self) :
    (self.filterNewLines lines)
        = ((self.filterNewLines lines).1, (self.filterNewLines lines).2) ∧
      TraceInv (H ++ (self.filterNewLines lines).2.map hashLine)
        (self.filterNewLines lines).1 := by
  obtain ⟨extra, hfold, hinv'⟩ := TraceInv_ffoldl lines self [] H hinv
  rw [filterNewLines_eq_ffoldl]
  refine ⟨rfl, ?_⟩
  have hsnd : (List.foldl ffStep (self, ([] : List (List Char))) lines).2
      = extra := by
    rw [hfold]
    simp
  rw [hsnd]
  exact hinv'

lemma TraceInv_ttFilterRun (batches : List (List (List Char))) :
    ∀ (self : TerminalTransform β) (out H : List (List Char)),
    TraceInv H self →
    ∃ extra,
      List.foldl
          (fun acc batch =>
            ((acc.1.filterNewLines batch).1,
             acc.2 ++ (acc.1.filterNewLines batch).2))
          (self, out) batches
        = ((List.foldl
            (fun acc batch =>
              ((acc.1.filterNewLines batch).1,
               acc.2 ++ (acc.1.filterNewLines batch).2))
            (self, out) batches).1, out ++ extra) ∧
      TraceInv (H ++ extra.map hashLine)
        ((List.foldl
            (fun acc batch =>
              ((acc.1.filterNewLines batch).1,
               acc.2 ++ (acc.1.filterNewLines batch).2))
            (self, out) batches).1) := by
  induction batches with
  | nil =>
    intro self out H hinv
    exact ⟨[], by simp, by simpa using hinv⟩
  | cons b bs ih =>
    intro self out H hinv
    rw [List.foldl_cons]
    obtain ⟨_, hinv'⟩ := TraceInv_filterNewLines self b H hinv
    obtain ⟨extra, hfold, hinv''⟩ :=
      ih (self.filterNewLines b).1 (out ++ (self.filterNewLines b).2)
        (H ++ (self.filterNewLines b).2.map hashLine) hinv'
    refine ⟨(self.filterNewLines b).2 ++ extra, ?_, ?_⟩
    · rw [hfold]
      simp
    · rw [List.map_append, ← List.append_assoc]
      exact hinv''

lemma ttFilterRun_window (self : TerminalTransform β)
    (batches : List (List (List Char))) (hwf : TTWf self)
    (i j : Nat) (li lj : List Char) (hij : i < j)
    (hgi : (ttFilterRun self batches).2[i]? = some li)
    (hgj : (ttFilterRun self batches).2[j]? = some lj)
    (heq : rustTrimEnd li = rustTrimEnd lj) :
    MAX_STORY_HASHES < j - i := by
  obtain ⟨extra, hfold, hinv⟩ :=
    TraceInv_ttFilterRun batches self [] self.storyHashOrder
      (TraceInv_start self hwf)
  have hout : (ttFilterRun self batches).2 = extra := by
    unfold ttFilterRun
    rw [hfold]
    simp
  rw [hout] at hgi hgj
  obtain ⟨_, _, hsep⟩ := hinv
  have hilen : i < extra.length := by
    have := (List.getElem?_eq_some.mp hgi).1
    omega
  have hjlen : j < extra.length := by
    have := (List.getElem?_eq_some.mp hgj).1
    omega
  have hgi' : (self.storyHashOrder ++ extra.map hashLine)[self.storyHashOrder.length + i]?
      = some (hashLine li) := by
    rw [List.getElem?_append_right (by omega)]
    simp only [Nat.add_sub_cancel_left]
    rw [List.getElem?_map, hgi]
    rfl
  have hgj' : (self.storyHashOrder ++ extra.map hashLine)[self.storyHashOrder.length + j]?
      = some (hashLine lj) := by
    rw [List.getElem?_append_right (by omega)]
    simp only [Nat.add_sub_cancel_left]
    rw [List.getElem?_map, hgj]
    rfl
  have := hsep (self.storyHashOrder.length + i) (self.storyHashOrder.length + j)
    (hashLine li) (hashLine lj) (by omega) hgi' hgj' heq
  omega

/-- C3: from any well-formed dedup state, (a) `insert_hash` keeps the
story hash set at no more than `MAX_STORY_HASHES = 50000` entries;
(b) when the set is at capacity and a new hash arrives, the evicted
entry is exactly the oldest one — the head of the FIFO order queue
leaves the set and the queue advances by one; (c) well-formedness (and
with it the capacity bound) is preserved by every prefix of every run
of `TerminalTransform::transform` and by the full transform, for every
terminal buffer implementation; (d) over any run of the
`filter_new_lines` dedup filter, two emitted story lines with equal
trailing-whitespace-trimmed forms are always more than 50000 emitted
insertions apart — within a window of 50000 emitted lines no
trim-right-equal duplicate appears. -/
theorem story_hash_set_bounded_fifo_window {β : Type}
    (ops : TerminalBufferOps β) (self : TerminalTransform β)
    (hwf : TTWf self) :
    (∀ h, (self.insertHash h).1.storyHashes.length ≤ MAX_STORY_HASHES) ∧
    (∀ h, h ∉ self.storyHashes →
      self.storyHashOrder.length = MAX_STORY_HASHES →
      (self.insertHash h).1.storyHashOrder
          = self.storyHashOrder.tail ++ [h] ∧
        ∀ o, self.storyHashOrder.head? = some o →
          o ∉ (self.insertHash h).1.storyHashes) ∧
    (∀ events : List Event,
      TTWf ((List.foldl (ttStep ops) (self, 0, []) events).1)) ∧
    (∀ events : List Event,
      TTWf (TerminalTransform.transform ops self events).1) ∧
    (∀ (batches : List (List (List Char))) (i j : Nat) (li lj : List Char),
      i < j →
      (ttFilterRun self batches).2[i]? = some li →
      (ttFilterRun self batches).2[j]? = some lj →
      rustTrimEnd li = rustTrimEnd lj →
      MAX_STORY_HASHES < j - i) := by
  obtain ⟨hperm, hnd, hle⟩ := hwf
  refine ⟨fun h => insertHash_card_le self h ⟨hperm, hnd, hle⟩,
    fun h hmem hfull => ?_,
    fun events => TTWf_ttFold ops events (self, 0, []) ⟨hperm, hnd, hle⟩,
    fun events => TTWf_transform ops self events ⟨hperm, hnd, hle⟩,
    fun batches i j li lj hij hgi hgj heq =>
      ttFilterRun_window self batches ⟨hperm, hnd, hle⟩ i j li lj hij hgi hgj heq⟩
  obtain ⟨o0, orest, hord, hchar⟩ :=
    insertHash_not_mem_full self h ⟨hperm, hnd, hle⟩ hmem hfull
  have ho0hashes : o0 ∈ self.storyHashes :=
    hperm.mem_iff.mpr (hord ▸ List.mem_cons_self o0 orest)
  have hne : h ≠ o0 := fun hcontra => hmem (hcontra ▸ ho0hashes)
  constructor
  · rw [hchar, hord]
    rfl
  · intro o ho
    have ho0 : o = o0 := by
      rw [hord] at ho
      simp only [List.head?_cons, Option.some.injEq] at ho
      exact ho.symm
    subst ho0
    rw [hchar]
    intro hcon
    rcases List.mem_cons.mp hcon with hch | hce
    · exact hne hch.symm
    · have hndh : self.storyHashes.Nodup := hperm.nodup_iff.mpr hnd
      exact ((List.Nodup.mem_erase_iff hndh).mp hce).1 rfl

/-- Witness for C3: the freshly constructed transform state over the
spec terminal is well-formed, so every conclusion holds for it. -/
theorem story_hash_set_bounded_fifo_window_witness :
    TTWf (TerminalTransform.new (TerminalBuffer.new 2 2)) ∧
    ((∀ h, ((TerminalTransform.new (TerminalBuffer.new 2 2)).insertHash h).1.storyHashes.length
        ≤ MAX_STORY_HASHES) ∧
    (∀ h, h ∉ (TerminalTransform.new (TerminalBuffer.new 2 2)).storyHashes →
      (TerminalTransform.new (TerminalBuffer.new 2 2)).storyHashOrder.length
          = MAX_STORY_HASHES →
      ((TerminalTransform.new (TerminalBuffer.new 2 2)).insertHash h).1.storyHashOrder
          = (TerminalTransform.new (TerminalBuffer.new 2 2)).storyHashOrder.tail ++ [h] ∧
        ∀ o, (TerminalTransform.new (TerminalBuffer.new 2 2)).storyHashOrder.head?
            = some o →
          o ∉ ((TerminalTransform.new (TerminalBuffer.new 2 2)).insertHash h).1.storyHashes) ∧
    (∀ events : List Event,
      TTWf ((List.foldl (ttStep specTerminalOps)
        (TerminalTransform.new (TerminalBuffer.new 2 2), 0, []) events).1)) ∧
    (∀ events : List Event,
      TTWf (TerminalTransform.transform specTerminalOps
        (TerminalTransform.new (TerminalBuffer.new 2 2)) events).1) ∧
    (∀ (batches : List (List (List Char))) (i j : Nat) (li lj : List Char),
      i < j →
      (ttFilterRun (TerminalTransform.new (TerminalBuffer.new 2 2)) batches).2[i]?
          = some li →
      (ttFilterRun (TerminalTransform.new (TerminalBuffer.new 2 2)) batches).2[j]?
          = some lj →
      rustTrimEnd li = rustTrimEnd lj →
      MAX_STORY_HASHES < j - i)) :=
  ⟨TTWf_new (TerminalBuffer.new 2 2),
    story_hash_set_bounded_fifo_window specTerminalOps
      (TerminalTransform.new (TerminalBuffer.new 2 2))
      (TTWf_new (TerminalBuffer.new 2 2))⟩

end AgrSpec
